import Mathlib

/-!
# go-money: the allocation and rounding engine

A shallow embedding of `calculator.go` and of the arithmetic part of `money.go`.

* Go's `int64` (and `int`, taken to be 64 bits wide) is modelled by `Int`; every
  arithmetic result is reduced into the signed 64-bit range by `wrap64`.
* Go's `/` and `%` truncate toward zero (`Int.tdiv`, `Int.tmod`) and panic on a zero
  divisor; an out-of-range slice index panics too.  A computation that may panic
  returns `Except Panic _`.
* A Go result pair `([]*Money, error)` is a pair of options: `none` is `nil`.
* `*Amount` is a pointer.  The only function that writes through such a pointer is
  `calculator.round`; it is modelled in state-passing style and returns, next to the
  freshly allocated result, the final content of the `Amount` it was given.
-/

namespace GoMoney

/-! ## Machine integers -/

/-- The integer is representable as an `int64`. -/
def InRange (x : Int) : Prop := -9223372036854775808 ≤ x ∧ x ≤ 9223372036854775807

instance (x : Int) : Decidable (InRange x) := by
  unfold InRange; exact inferInstance

/-- Two's complement reduction of an exact integer into the `int64` range. -/
def wrap64 (x : Int) : Int :=
  (x + 9223372036854775808) % 18446744073709551616 - 9223372036854775808

/-- Run-time panics that the modelled code can raise. -/
inductive Panic where
  | divideByZero
  | indexOutOfRange
  deriving DecidableEq, Repr

deriving instance DecidableEq for Except

/-! ## Data model (`money.go`) -/

/-- The Go struct `Amount` with its single field `Val int64`. -/
structure Amount where
  Val : Int
  deriving DecidableEq, Repr

/-- Modelled from the spec: the currency descriptor `Currency` is declared in a file
that is not part of the sources at hand.  The spec lists its content as code, symbol,
fraction and separators; `Fraction` (a Go `int`) is the rounding exponent. -/
structure Currency where
  Code : String
  Fraction : Int
  Grapheme : String
  Decimal : String
  Thousand : String
  deriving DecidableEq, Repr

/-- The Go struct `Money`: an amount and a currency descriptor. -/
structure Money where
  AmountData : Amount
  CurrencyData : Currency
  deriving DecidableEq, Repr

/-- The method `Money.Amount`: the stored value. -/
def Money.Amount (m : Money) : Int := m.AmountData.Val

/-- The amounts of a list of money values, in order. -/
def amounts (ms : List Money) : List Int := ms.map Money.Amount

/-! ## Arithmetic core (`calculator.go`) -/

namespace calculator

/-- The function `calculator.add`: `a.Val + b.Val` on `int64`. -/
def add (a b : Amount) : Amount := ⟨wrap64 (a.Val + b.Val)⟩

/-- The function `calculator.subtract`: `a.Val - b.Val` on `int64`. -/
def subtract (a b : Amount) : Amount := ⟨wrap64 (a.Val - b.Val)⟩

/-- The function `calculator.multiply`: `a.Val * m` on `int64`. -/
def multiply (a : Amount) (m : Int) : Amount := ⟨wrap64 (a.Val * m)⟩

/-- The function `calculator.divide`: `a.Val / d`, truncating, panics when `d` is zero. -/
def divide (a : Amount) (d : Int) : Except Panic Amount :=
  if d = 0 then .error .divideByZero else .ok ⟨wrap64 (a.Val.tdiv d)⟩

/-- The function `calculator.modulus`: `a.Val % d`, sign of the dividend, panics when
`d` is zero. -/
def modulus (a : Amount) (d : Int) : Except Panic Amount :=
  if d = 0 then .error .divideByZero else .ok ⟨a.Val.tmod d⟩

/-- The function `calculator.allocate`: `a.Val * int64(r) / int64(s)`. -/
def allocate (a : Amount) (r s : Int) : Except Panic Amount :=
  if s = 0 then .error .divideByZero else .ok ⟨wrap64 ((wrap64 (a.Val * r)).tdiv s)⟩

/-- The function `calculator.absolute`. -/
def absolute (a : Amount) : Amount :=
  if a.Val < 0 then ⟨wrap64 (-a.Val)⟩ else ⟨a.Val⟩

/-- The function `calculator.negative`. -/
def negative (a : Amount) : Amount :=
  if a.Val > 0 then ⟨wrap64 (-a.Val)⟩ else ⟨a.Val⟩

/-- The expression `int64(math.Pow(10, float64(e)))`.  For `0 ≤ e ≤ 18` the power is an
integer that both `float64` and `int64` hold exactly.  For `e < 0` the power lies
strictly between 0 and 1 (or underflows to 0) and the conversion truncates it to 0.
For `e > 18` the power, or the infinity that `math.Pow` returns for it, exceeds
`int64`; Go leaves the result of such a conversion to the implementation, and the value
taken here is the one of amd64, the smallest `int64`. -/
def pow10 (e : Int) : Int :=
  if e < 0 then 0 else if e ≤ 18 then 10 ^ e.toNat else -9223372036854775808

/-- The function `calculator.round`.  The first component is the returned, freshly
allocated amount; the second is the content of the argument `a` when the function
returns (the function assigns to `a.Val`). -/
def round (a : Amount) (e : Int) : Except Panic (Amount × Amount) :=
  if a.Val = 0 then .ok (⟨0⟩, a)
  else
    let absam := absolute a
    let exp := pow10 e
    if exp = 0 then .error .divideByZero
    else
      let m := absam.Val.tmod exp
      let bumped := if m > wrap64 (exp.tdiv 2) then wrap64 (absam.Val + exp) else absam.Val
      let trunc := wrap64 (wrap64 (bumped.tdiv exp) * exp)
      let a1 : Amount := if a.Val < 0 then ⟨wrap64 (-trunc)⟩ else ⟨trunc⟩
      .ok (⟨a1.Val⟩, a1)

end calculator

/-! ## Allocation layer (`money.go`) -/

/-- The leftover loop shared by `Split` and `Allocate`:
`for p := 0; l != 0; p++ { ms[p].AmountData = add(ms[p].AmountData, &Amount{sub}); l -= sub }`.
The list argument is the part `ms[p:]` of the slice not yet visited; when it is empty
while `l` is still non-zero the access `ms[p]` is out of range.  `Split` runs the loop
with `sub = 1` (its `l--`). -/
def distribute (sub : Int) : List Money → Int → Except Panic (List Money)
  | [], l => if l = 0 then .ok [] else .error .indexOutOfRange
  | m :: rest, l =>
    if l = 0 then .ok (m :: rest)
    else
      match distribute sub rest (wrap64 (l - sub)) with
      | .error p => .error p
      | .ok rest1 => .ok (⟨calculator.add m.AmountData ⟨sub⟩, m.CurrencyData⟩ :: rest1)

/-- Modelled from the spec: the method `Currency.equals` is declared with `Currency`,
in a file that is not part of the sources at hand.  The spec asks for a value-equality
comparison on the descriptor (code, symbol, fraction, separators): two descriptors
compare equal exactly when they are the same value. -/
def Currency.equals (c oc : Currency) : Bool := decide (c = oc)

/-- The method `Money.SameCurrencyData`. -/
def Money.SameCurrencyData (m om : Money) : Bool := m.CurrencyData.equals om.CurrencyData

/-- The method `Money.assertSameCurrencyData`: the error, or `none` for `nil`. -/
def Money.assertSameCurrencyData (m om : Money) : Option String :=
  if !m.SameCurrencyData om then some "currencies don't match" else none

/-- The method `Money.compare`. -/
def Money.compare (m om : Money) : Int :=
  if m.AmountData.Val > om.AmountData.Val then 1
  else if m.AmountData.Val < om.AmountData.Val then -1
  else 0

/-- The method `Money.Equals`; the result pair is `(bool, error)`. -/
def Money.Equals (m om : Money) : Bool × Option String :=
  match m.assertSameCurrencyData om with
  | some err => (false, some err)
  | none => (decide (m.compare om = 0), none)

/-- The method `Money.GreaterThan`. -/
def Money.GreaterThan (m om : Money) : Bool × Option String :=
  match m.assertSameCurrencyData om with
  | some err => (false, some err)
  | none => (decide (m.compare om = 1), none)

/-- The method `Money.GreaterThanOrEqual`. -/
def Money.GreaterThanOrEqual (m om : Money) : Bool × Option String :=
  match m.assertSameCurrencyData om with
  | some err => (false, some err)
  | none => (decide (m.compare om ≥ 0), none)

/-- The method `Money.LessThan`. -/
def Money.LessThan (m om : Money) : Bool × Option String :=
  match m.assertSameCurrencyData om with
  | some err => (false, some err)
  | none => (decide (m.compare om = -1), none)

/-- The method `Money.LessThanOrEqual`. -/
def Money.LessThanOrEqual (m om : Money) : Bool × Option String :=
  match m.assertSameCurrencyData om with
  | some err => (false, some err)
  | none => (decide (m.compare om ≤ 0), none)

/-- The method `Money.Add`; the result pair is `(*Money, error)`. -/
def Money.Add (m om : Money) : Option Money × Option String :=
  match m.assertSameCurrencyData om with
  | some err => (none, some err)
  | none => (some ⟨calculator.add m.AmountData om.AmountData, m.CurrencyData⟩, none)

/-- The method `Money.Subtract`. -/
def Money.Subtract (m om : Money) : Option Money × Option String :=
  match m.assertSameCurrencyData om with
  | some err => (none, some err)
  | none => (some ⟨calculator.subtract m.AmountData om.AmountData, m.CurrencyData⟩, none)

/-- The method `Money.Absolute`. -/
def Money.Absolute (m : Money) : Money := ⟨calculator.absolute m.AmountData, m.CurrencyData⟩

/-- The method `Money.Negative`. -/
def Money.Negative (m : Money) : Money := ⟨calculator.negative m.AmountData, m.CurrencyData⟩

/-- The method `Money.Multiply`. -/
def Money.Multiply (m : Money) (mul : Int) : Money :=
  ⟨calculator.multiply m.AmountData mul, m.CurrencyData⟩

/-- The method `Money.Round`.  The first component is the returned money value, the
second is the receiver after the call: `calculator.round` is handed the receiver's own
`AmountData` pointer and writes to it. -/
def Money.Round (m : Money) : Except Panic (Money × Money) :=
  match calculator.round m.AmountData m.CurrencyData.Fraction with
  | .error p => .error p
  | .ok (r, a1) => .ok (⟨r, m.CurrencyData⟩, ⟨a1, m.CurrencyData⟩)

/-- The method `Money.Split`. -/
def Money.Split (m : Money) (n : Int) : Except Panic (Option (List Money) × Option String) :=
  if n ≤ 0 then .ok (none, some "split must be higher than zero")
  else
    match calculator.divide m.AmountData n with
    | .error p => .error p
    | .ok a =>
      let ms : List Money := List.replicate n.toNat ⟨a, m.CurrencyData⟩
      match calculator.modulus m.AmountData n with
      | .error p => .error p
      | .ok l =>
        match distribute 1 ms l.Val with
        | .error p => .error p
        | .ok ms1 => .ok (some ms1, none)

/-- The first loop of `Money.Allocate`: `for _, r := range rs { sum += r }`. -/
def ratioSum (rs : List Int) : Int := rs.foldl (fun sum r => wrap64 (sum + r)) 0

/-- The second loop of `Money.Allocate`: one party per ratio, appended to `ms`, its
amount added to `total`. -/
def allocateLoop (m : Money) (sum : Int) :
    List Int → List Money → Int → Except Panic (List Money × Int)
  | [], ms, total => .ok (ms, total)
  | r :: rs, ms, total =>
    match calculator.allocate m.AmountData r sum with
    | .error p => .error p
    | .ok party =>
      allocateLoop m sum rs (ms ++ [⟨party, m.CurrencyData⟩]) (wrap64 (total + party.Val))

/-- The method `Money.Allocate`. -/
def Money.Allocate (m : Money) (rs : List Int) :
    Except Panic (Option (List Money) × Option String) :=
  if rs.length = 0 then .ok (none, some "no ratios specified")
  else
    let sum := ratioSum rs
    match allocateLoop m sum rs [] 0 with
    | .error p => .error p
    | .ok (ms, total) =>
      let lo := wrap64 (m.AmountData.Val - total)
      let sub : Int := if lo < 0 then wrap64 (-1) else 1
      match distribute sub ms lo with
      | .error p => .error p
      | .ok ms1 => .ok (some ms1, none)

/-- A currency with two decimal digits, as `EUR` in the tests. -/
def eur : Currency := ⟨"EUR", 2, "€", ".", ","⟩

/-- A money value of the given amount in `eur`. -/
def mk (a : Int) : Money := ⟨⟨a⟩, eur⟩

/-- A second currency, as `GBP` in the tests. -/
def gbp : Currency := ⟨"GBP", 2, "£", ".", ","⟩

/-- Add `sub` to each of the first `k` entries of a list of amounts. -/
def addFirst (sub : Int) : Nat → List Int → List Int
  | 0, xs => xs
  | _ + 1, [] => []
  | k + 1, x :: xs => (x + sub) :: addFirst sub k xs

/-- The truncated raw shares `a * r / s` of an amount `a`, one per ratio. -/
def rawShares (a s : Int) (rs : List Int) : List Int := rs.map (fun r => (a * r).tdiv s)

/-- The party that `Allocate` builds from a raw share. -/
def party (c : Currency) (q : Int) : Money := ⟨⟨q⟩, c⟩

/-- The leftover of `Allocate` in exact integers: the amount minus the raw shares. -/
def leftover (a : Int) (rs : List Int) : Int := a - (rawShares a rs.sum rs).sum

/-- The inputs of `Allocate` on which no `int64` operation overflows and the ratios are
as the spec demands: the amount is an `int64`, the ratios are non-negative, their sum
is positive and an `int64`, and every product `a * r` is an `int64`. -/
def NoOverflow (a : Int) (rs : List Int) : Prop :=
  InRange a ∧ (∀ r ∈ rs, 0 ≤ r) ∧ 0 < rs.sum ∧ rs.sum ≤ 9223372036854775807 ∧
    ∀ r ∈ rs, InRange (a * r)

instance (a : Int) (rs : List Int) : Decidable (NoOverflow a rs) := by
  unfold NoOverflow; exact inferInstance

/-! ## Machine integers: basic facts -/

theorem wrap64_of_inRange {x : Int} (h : InRange x) : wrap64 x = x := by
  unfold InRange at h
  unfold wrap64
  omega

theorem inRange_wrap64 (x : Int) : InRange (wrap64 x) := by
  unfold InRange wrap64
  omega

/-! ## The leftover loop -/

theorem length_addFirst (sub : Int) : ∀ (k : Nat) (xs : List Int),
    (addFirst sub k xs).length = xs.length
  | 0, _ => rfl
  | _ + 1, [] => rfl
  | k + 1, _ :: xs => by simp [addFirst, length_addFirst sub k xs]

theorem sum_addFirst (sub : Int) : ∀ (k : Nat) (xs : List Int), k ≤ xs.length →
    (addFirst sub k xs).sum = xs.sum + sub * k
  | 0, _, _ => by simp [addFirst]
  | _ + 1, [], h => by simp at h
  | k + 1, x :: xs, h => by
    have ih := sum_addFirst sub k xs (by simpa using h)
    simp only [addFirst, List.sum_cons, ih]
    push_cast
    ring

theorem getElem?_addFirst (sub : Int) : ∀ (k : Nat) (xs : List Int) (i : Nat),
    (addFirst sub k xs)[i]? = xs[i]?.map (fun x => if i < k then x + sub else x)
  | 0, xs, i => by simp [addFirst]
  | _ + 1, [], i => by simp [addFirst]
  | k + 1, x :: xs, 0 => by simp [addFirst]
  | k + 1, x :: xs, i + 1 => by
    simp [addFirst, getElem?_addFirst sub k xs i]

/-- The leftover loop, run with `k` units still to hand out on a slice of at least `k`
parties, adds one unit to each of the first `k` parties and leaves the others alone,
provided no addition leaves the `int64` range. -/
theorem distribute_spec (sub : Int) (hsub : sub = 1 ∨ sub = -1) :
    ∀ (ms : List Money) (k : Nat), k ≤ ms.length → InRange (sub * k) →
      (k ≠ 0 → ∀ m ∈ ms, InRange (m.AmountData.Val + sub)) →
      ∃ ms1, distribute sub ms (sub * k) = .ok ms1 ∧
        amounts ms1 = addFirst sub k (amounts ms) ∧
        ms1.map Money.CurrencyData = ms.map Money.CurrencyData := by
  intro ms
  induction ms with
  | nil =>
    intro k hk _ _
    have : k = 0 := by simpa using hk
    subst this
    exact ⟨[], by simp [distribute], rfl, rfl⟩
  | cons m rest ih =>
    intro k hk hmax hr
    cases k with
    | zero => exact ⟨m :: rest, by simp [distribute], rfl, rfl⟩
    | succ k =>
      have hne : sub * ((k + 1 : Nat) : Int) ≠ 0 := by
        rcases hsub with h | h <;> subst h <;> push_cast <;> omega
      have hmax1 : InRange (sub * (k : Int)) := by
        unfold InRange at hmax ⊢
        push_cast at hmax
        rcases hsub with h | h <;> subst h <;> omega
      have hstep : wrap64 (sub * ((k + 1 : Nat) : Int) - sub) = sub * (k : Int) := by
        have : sub * ((k + 1 : Nat) : Int) - sub = sub * (k : Int) := by push_cast; ring
        rw [this]
        apply wrap64_of_inRange
        exact hmax1
      have hm := hr (by simp) m (by simp)
      obtain ⟨rest1, h1, h2, h3⟩ := ih k (by simpa using hk) hmax1
        (fun _ x hx => hr (by simp) x (List.mem_cons_of_mem _ hx))
      refine ⟨⟨calculator.add m.AmountData ⟨sub⟩, m.CurrencyData⟩ :: rest1, ?_, ?_, ?_⟩
      · rw [distribute, if_neg hne, hstep, h1]
      · simp only [amounts, List.map_cons, addFirst] at h2 ⊢
        rw [h2]
        simp [Money.Amount, calculator.add, wrap64_of_inRange hm]
      · simp [h3]

/-! ## Truncated raw shares -/

theorem tdiv_bounds_of_nonneg {x s : Int} (hx : 0 ≤ x) (hs : 0 < s) :
    0 ≤ x.tdiv s ∧ s * x.tdiv s ≤ x ∧ x - s * x.tdiv s ≤ s - 1 := by
  have h1 := Int.tdiv_add_tmod x s
  have h2 := Int.tmod_nonneg s hx
  have h3 := Int.tmod_lt_of_pos x hs
  have h4 := Int.tdiv_nonneg hx hs.le
  refine ⟨h4, ?_, ?_⟩ <;> omega

theorem rawShares_neg (a s : Int) (rs : List Int) :
    rawShares (-a) s rs = (rawShares a s rs).map (fun q => -q) := by
  simp [rawShares, Int.neg_mul, Int.neg_tdiv]

theorem sum_map_neg (xs : List Int) : (xs.map (fun q => -q)).sum = -xs.sum := by
  induction xs with
  | nil => simp
  | cons x xs ih => simp [ih]; ring

theorem length_rawShares (a s : Int) (rs : List Int) :
    (rawShares a s rs).length = rs.length := by
  simp [rawShares]

/-- For a non-negative amount the raw shares are non-negative, together they do not
exceed the exact shares, and they fall short by less than one unit per party. -/
theorem rawShares_of_nonneg {a s : Int} (ha : 0 ≤ a) (hs : 0 < s) :
    ∀ rs : List Int, (∀ r ∈ rs, 0 ≤ r) →
      (∀ q ∈ rawShares a s rs, 0 ≤ q) ∧ 0 ≤ (rawShares a s rs).sum ∧
      s * (rawShares a s rs).sum ≤ a * rs.sum ∧
      a * rs.sum - s * (rawShares a s rs).sum ≤ (s - 1) * rs.length := by
  intro rs
  induction rs with
  | nil => intro _; simp [rawShares]
  | cons r rs ih =>
    intro h
    obtain ⟨i1, i2, i3, i4⟩ := ih (fun x hx => h x (List.mem_cons_of_mem _ hx))
    have hr : 0 ≤ r := h r (by simp)
    obtain ⟨b1, b2, b3⟩ := tdiv_bounds_of_nonneg (Int.mul_nonneg ha hr) hs
    have e1 : rawShares a s (r :: rs) = (a * r).tdiv s :: rawShares a s rs := rfl
    refine ⟨?_, ?_, ?_, ?_⟩
    · intro q hq
      rw [e1] at hq
      rcases List.mem_cons.mp hq with h1 | h1
      · rw [h1]; exact b1
      · exact i1 q h1
    · rw [e1, List.sum_cons]; omega
    · rw [e1, List.sum_cons, List.sum_cons]
      have : a * (r + rs.sum) = a * r + a * rs.sum := by ring
      have : s * ((a * r).tdiv s + (rawShares a s rs).sum)
          = s * (a * r).tdiv s + s * (rawShares a s rs).sum := by ring
      omega
    · rw [e1, List.sum_cons, List.sum_cons, List.length_cons]
      have : a * (r + rs.sum) = a * r + a * rs.sum := by ring
      have : s * ((a * r).tdiv s + (rawShares a s rs).sum)
          = s * (a * r).tdiv s + s * (rawShares a s rs).sum := by ring
      have : (s - 1) * ((rs.length + 1 : Nat) : Int) = (s - 1) * (rs.length : Int) + (s - 1) := by
        push_cast; ring
      omega

/-- The leftover of a non-negative amount: between zero and the number of parties. -/
theorem leftover_of_nonneg {a : Int} (ha : 0 ≤ a) (rs : List Int) (hrs : ∀ r ∈ rs, 0 ≤ r)
    (hs : 0 < rs.sum) :
    0 ≤ a - (rawShares a rs.sum rs).sum ∧ a - (rawShares a rs.sum rs).sum < rs.length ∧
      (rawShares a rs.sum rs).sum ≤ a ∧ 0 ≤ (rawShares a rs.sum rs).sum := by
  obtain ⟨_, h2, h3, h4⟩ := rawShares_of_nonneg ha hs rs hrs
  have hle : (rawShares a rs.sum rs).sum ≤ a := by
    by_contra hc
    have : rs.sum * (a + 1) ≤ rs.sum * (rawShares a rs.sum rs).sum :=
      Int.mul_le_mul_of_nonneg_left (by omega) hs.le
    nlinarith
  have hlen : 0 < rs.length := by
    cases rs with
    | nil => simp at hs
    | cons _ _ => simp
  refine ⟨by omega, ?_, hle, h2⟩
  by_contra hc
  have h5 : (rs.length : Int) ≤ a - (rawShares a rs.sum rs).sum := by omega
  have h6 : rs.sum * (rs.length : Int) ≤ rs.sum * (a - (rawShares a rs.sum rs).sum) :=
    Int.mul_le_mul_of_nonneg_left h5 hs.le
  have h7 : (0 : Int) < rs.length := by exact_mod_cast hlen
  nlinarith

/-- The leftover of a non-positive amount: between minus the number of parties and
zero. -/
theorem leftover_of_nonpos {a : Int} (ha : a ≤ 0) (rs : List Int) (hrs : ∀ r ∈ rs, 0 ≤ r)
    (hs : 0 < rs.sum) :
    a - (rawShares a rs.sum rs).sum ≤ 0 ∧ -(rs.length : Int) < a - (rawShares a rs.sum rs).sum ∧
      a ≤ (rawShares a rs.sum rs).sum ∧ (rawShares a rs.sum rs).sum ≤ 0 := by
  obtain ⟨h1, h2, h3, h4⟩ := leftover_of_nonneg (a := -a) (by omega) rs hrs hs
  have e : rawShares a rs.sum rs = (rawShares (-a) rs.sum rs).map (fun q => -q) := by
    have := rawShares_neg (-a) rs.sum rs
    simpa using this
  rw [e, sum_map_neg]
  refine ⟨by omega, by omega, by omega, by omega⟩

theorem rawShares_mem_of_nonneg {a : Int} (ha : 0 ≤ a) (rs : List Int)
    (hrs : ∀ r ∈ rs, 0 ≤ r) (hs : 0 < rs.sum) :
    ∀ q ∈ rawShares a rs.sum rs, 0 ≤ q ∧ q ≤ (rawShares a rs.sum rs).sum := by
  intro q hq
  obtain ⟨h1, _⟩ := rawShares_of_nonneg ha hs rs hrs
  exact ⟨h1 q hq, List.single_le_sum h1 q hq⟩

theorem rawShares_mem_of_nonpos {a : Int} (ha : a ≤ 0) (rs : List Int)
    (hrs : ∀ r ∈ rs, 0 ≤ r) (hs : 0 < rs.sum) :
    ∀ q ∈ rawShares a rs.sum rs, q ≤ 0 ∧ (rawShares a rs.sum rs).sum ≤ q := by
  intro q hq
  have e : rawShares a rs.sum rs = (rawShares (-a) rs.sum rs).map (fun q => -q) := by
    have := rawShares_neg (-a) rs.sum rs
    simpa using this
  rw [e] at hq ⊢
  rw [sum_map_neg]
  obtain ⟨p, hp, rfl⟩ := List.mem_map.mp hq
  obtain ⟨h1, h2⟩ := rawShares_mem_of_nonneg (a := -a) (by omega) rs hrs hs p hp
  exact ⟨by omega, by omega⟩

/-! ## The loops of `Allocate` -/

theorem ratioSum_loop : ∀ (rs : List Int) (acc : Int), 0 ≤ acc → (∀ r ∈ rs, 0 ≤ r) →
    acc + rs.sum ≤ 9223372036854775807 →
    rs.foldl (fun sum r => wrap64 (sum + r)) acc = acc + rs.sum
  | [], acc, _, _, _ => by simp
  | r :: rs, acc, h0, hrs, hmax => by
    have hr : 0 ≤ r := hrs r (by simp)
    have hsum : 0 ≤ rs.sum := List.sum_nonneg (fun x hx => hrs x (List.mem_cons_of_mem _ hx))
    rw [List.sum_cons] at hmax
    have hw : wrap64 (acc + r) = acc + r := wrap64_of_inRange ⟨by omega, by omega⟩
    rw [List.foldl_cons, hw,
      ratioSum_loop rs (acc + r) (by omega) (fun x hx => hrs x (List.mem_cons_of_mem _ hx))
        (by omega), List.sum_cons]
    ring

theorem ratioSum_eq (rs : List Int) (hrs : ∀ r ∈ rs, 0 ≤ r)
    (hmax : rs.sum ≤ 9223372036854775807) : ratioSum rs = rs.sum := by
  have := ratioSum_loop rs 0 (le_refl 0) hrs (by simpa using hmax)
  simpa [ratioSum] using this

theorem amounts_map_party (c : Currency) (qs : List Int) : amounts (qs.map (party c)) = qs := by
  induction qs with
  | nil => rfl
  | cons q qs ih =>
    simp only [amounts, List.map_cons] at ih ⊢
    rw [ih]
    rfl

/-- The party-building loop returns one party per ratio holding the raw share, and
the sum of the raw shares, provided the running total keeps one sign (`sg` is 1 or -1)
and stays in the `int64` range. -/
theorem allocateLoop_spec (c : Currency) (a s : Int) (hs : s ≠ 0) (sg : Int)
    (hsg : sg = 1 ∨ sg = -1) :
    ∀ (rs : List Int) (ms : List Money) (total : Int),
      (∀ r ∈ rs, InRange (a * r)) →
      (∀ q ∈ rawShares a s rs, 0 ≤ sg * q) →
      0 ≤ sg * total → InRange (total + (rawShares a s rs).sum) →
      allocateLoop ⟨⟨a⟩, c⟩ s rs ms total
        = .ok (ms ++ (rawShares a s rs).map (party c), total + (rawShares a s rs).sum) := by
  intro rs
  induction rs with
  | nil => intro ms total _ _ _ _; simp [allocateLoop, rawShares]
  | cons r rs ih =>
    intro ms total hr hq h0 hmax
    have e1 : rawShares a s (r :: rs) = (a * r).tdiv s :: rawShares a s rs := rfl
    rw [e1] at hq hmax ⊢
    rw [List.sum_cons] at hmax ⊢
    unfold InRange at hmax
    have hq0 : 0 ≤ sg * (a * r).tdiv s := hq _ (by simp)
    have hrest : 0 ≤ sg * (rawShares a s rs).sum := by
      rcases hsg with h | h <;> subst h
      · have := List.sum_nonneg (l := rawShares a s rs)
          (fun x hx => by have := hq x (List.mem_cons_of_mem _ hx); omega)
        omega
      · have := List.sum_nonneg (l := (rawShares a s rs).map (fun q => -q))
          (fun x hx => by
            obtain ⟨y, hy, rfl⟩ := List.mem_map.mp hx
            have := hq y (List.mem_cons_of_mem _ hy); omega)
        rw [sum_map_neg] at this
        omega
    have hqr : InRange ((a * r).tdiv s) := by
      unfold InRange
      rcases hsg with h | h <;> subst h <;> omega
    have htot : InRange (total + (a * r).tdiv s) := by
      unfold InRange
      rcases hsg with h | h <;> subst h <;> omega
    have hstep : calculator.allocate ⟨a⟩ r s = .ok ⟨(a * r).tdiv s⟩ := by
      simp [calculator.allocate, hs, wrap64_of_inRange (hr r (by simp)), wrap64_of_inRange hqr]
    rw [allocateLoop]
    simp only [hstep, wrap64_of_inRange htot]
    rw [ih _ _ (fun x hx => hr x (List.mem_cons_of_mem _ hx))
      (fun x hx => hq x (List.mem_cons_of_mem _ hx))
      (by rcases hsg with h | h <;> subst h <;> omega)
      (by unfold InRange; omega)]
    simp [party, add_assoc]

/-- On inputs without overflow `Allocate` returns the raw shares with one unit of the
leftover's sign added to each of the first `|leftover|` parties; the leftover has the
sign of the amount and is smaller in magnitude than the number of parties. -/
theorem Allocate_shape (c : Currency) (a : Int) (rs : List Int) (h : NoOverflow a rs) :
    ∃ ms, Money.Allocate ⟨⟨a⟩, c⟩ rs = .ok (some ms, none) ∧
      amounts ms
        = addFirst (leftover a rs).sign (leftover a rs).natAbs (rawShares a rs.sum rs) ∧
      ms.map Money.CurrencyData = rs.map (fun _ => c) ∧
      (leftover a rs).natAbs < rs.length ∧
      (0 ≤ a → 0 ≤ leftover a rs) ∧ (a ≤ 0 → leftover a rs ≤ 0) := by
  obtain ⟨⟨ha1, ha2⟩, hrs, hs, hmax, hprod⟩ := h
  have hlen : rs.length ≠ 0 := by
    cases rs with
    | nil => simp at hs
    | cons _ _ => simp
  have hsum : ratioSum rs = rs.sum := ratioSum_eq rs hrs hmax
  -- bounds on the raw shares and on the leftover, by the sign of the amount
  have hb : ∃ sg : Int, (sg = 1 ∨ sg = -1) ∧ 0 ≤ sg * leftover a rs ∧
      sg * leftover a rs < rs.length ∧ 0 ≤ sg * a ∧
      0 ≤ sg * (rawShares a rs.sum rs).sum ∧
      ∀ q ∈ rawShares a rs.sum rs, 0 ≤ sg * q ∧
        sg * q ≤ sg * (rawShares a rs.sum rs).sum := by
    rcases le_total 0 a with hpos | hneg
    · obtain ⟨l1, l2, _, l4⟩ := leftover_of_nonneg hpos rs hrs hs
      refine ⟨1, Or.inl rfl, by simpa [leftover] using l1, by simpa [leftover] using l2,
        by omega, by omega, ?_⟩
      intro q hq
      have := rawShares_mem_of_nonneg hpos rs hrs hs q hq
      omega
    · obtain ⟨l1, l2, _, l4⟩ := leftover_of_nonpos hneg rs hrs hs
      refine ⟨-1, Or.inr rfl, ?_, ?_, by omega, by omega, ?_⟩
      · simp only [leftover]; omega
      · simp only [leftover]; omega
      · intro q hq
        have := rawShares_mem_of_nonpos hneg rs hrs hs q hq
        omega
  obtain ⟨sg, hsg, hl0, hl1, hsa, hsq, hq⟩ := hb
  have hlo : leftover a rs = a - (rawShares a rs.sum rs).sum := rfl
  have hloop := allocateLoop_spec c a rs.sum (by omega) sg hsg rs [] 0 hprod
    (fun q hq1 => (hq q hq1).1) (by simp)
    (by unfold InRange; rcases hsg with h | h <;> subst h <;> omega)
  have hwlo : wrap64 (a - (0 + (rawShares a rs.sum rs).sum)) = leftover a rs := by
    rw [zero_add, ← hlo]
    apply wrap64_of_inRange
    unfold InRange
    rcases hsg with h | h <;> subst h <;> omega
  have hk : ((leftover a rs).natAbs : Int) = sg * leftover a rs := by
    rcases hsg with h | h <;> subst h <;> omega
  -- the unit handed out by the leftover loop
  have hsub : ∃ sub : Int, (sub = 1 ∨ sub = -1) ∧
      (if leftover a rs < 0 then wrap64 (-1) else 1) = sub ∧
      sub * ((leftover a rs).natAbs : Int) = leftover a rs ∧
      ((leftover a rs).natAbs ≠ 0 → sub = sg ∧ sub = (leftover a rs).sign) := by
    by_cases hneg : leftover a rs < 0
    · refine ⟨-1, Or.inr rfl, by rw [if_pos hneg]; rfl, by omega, fun _ => ⟨?_, ?_⟩⟩
      · rcases hsg with h | h <;> subst h <;> omega
      · exact (Int.sign_eq_neg_one_of_neg hneg).symm
    · refine ⟨1, Or.inl rfl, by rw [if_neg hneg], by omega, fun h0 => ⟨?_, ?_⟩⟩
      · rcases hsg with h | h <;> subst h <;> omega
      · exact (Int.sign_eq_one_of_pos (by omega)).symm
  obtain ⟨sub, hsub1, hsub2, hsub3, hsub4⟩ := hsub
  obtain ⟨ms1, d1, d2, d3⟩ := distribute_spec sub hsub1
    ((rawShares a rs.sum rs).map (party c)) (leftover a rs).natAbs
    (by simp only [List.length_map, length_rawShares]; omega)
    (by
      rw [hsub3]
      unfold InRange
      rcases hsg with h | h <;> subst h <;> omega)
    (by
      intro hk0 m hm
      obtain ⟨q, hq1, rfl⟩ := List.mem_map.mp hm
      obtain ⟨e1, _⟩ := hsub4 hk0
      have := hq q hq1
      simp only [party]
      unfold InRange
      rcases hsg with h | h <;> subst h <;> subst e1 <;> omega)
  refine ⟨ms1, ?_, ?_, ?_, by omega, ?_, ?_⟩
  · unfold Money.Allocate
    rw [if_neg hlen]
    simp only [hsum, hloop, List.nil_append, hwlo, hsub2]
    rw [hsub3] at d1
    rw [d1]
  · rw [d2, amounts_map_party]
    by_cases hk0 : (leftover a rs).natAbs = 0
    · rw [hk0]; rfl
    · rw [(hsub4 hk0).2]
  · rw [d3]
    simp only [rawShares, List.map_map]
    rfl
  · intro h0
    rcases hsg with h | h <;> subst h <;> omega
  · intro h0
    rcases hsg with h | h <;> subst h <;> omega

theorem tdiv_bounds_of_nonpos {x s : Int} (hx : x ≤ 0) (hs : 0 < s) :
    x.tdiv s ≤ 0 ∧ x ≤ s * x.tdiv s ∧ s * x.tdiv s - x ≤ s - 1 := by
  obtain ⟨h1, h2, h3⟩ := tdiv_bounds_of_nonneg (x := -x) (by omega) hs
  rw [Int.neg_tdiv] at h1 h2 h3
  have : s * -(x.tdiv s) = -(s * x.tdiv s) := by ring
  rw [this] at h2 h3
  refine ⟨by omega, by omega, by omega⟩

theorem length_amounts (ms : List Money) : (amounts ms).length = ms.length := by
  simp [amounts]

/-- What `Allocate` returns at index `i`, read off `Allocate_shape`. -/
theorem Allocate_getElem (c : Currency) (a : Int) (rs : List Int) (h : NoOverflow a rs) :
    ∃ ms, Money.Allocate ⟨⟨a⟩, c⟩ rs = .ok (some ms, none) ∧ ms.length = rs.length ∧
      ∀ (i : Nat) (r : Int), rs[i]? = some r →
        (amounts ms)[i]? = some ((a * r).tdiv rs.sum
          + if i < (leftover a rs).natAbs then (leftover a rs).sign else 0) := by
  obtain ⟨ms, h1, h2, _, _, _, _⟩ := Allocate_shape c a rs h
  refine ⟨ms, h1, ?_, ?_⟩
  · rw [← length_amounts, h2, length_addFirst, length_rawShares]
  · intro i r hr
    rw [h2, getElem?_addFirst]
    have : (rawShares a rs.sum rs)[i]? = some ((a * r).tdiv rs.sum) := by
      simp [rawShares, hr]
    rw [this]
    by_cases hi : i < (leftover a rs).natAbs <;> simp [hi]

/-! ## `Split` on non-negative amounts -/

/-- For a non-negative `int64` amount and a positive count `Split` returns `n` parts:
the truncated quotient, plus one unit for each of the first `a mod n` parts; the parts
sum to the amount. -/
theorem Split_of_nonneg (c : Currency) (a n : Int) (ha : InRange a) (ha0 : 0 ≤ a)
    (hn0 : 0 < n) :
    ∃ ms, Money.Split ⟨⟨a⟩, c⟩ n = .ok (some ms, none) ∧
      amounts ms = addFirst 1 (a % n).toNat (List.replicate n.toNat (a / n)) ∧
      ms.length = n.toNat ∧ (amounts ms).sum = a := by
  unfold InRange at ha
  have hdm := Int.ediv_add_emod a n
  have hm0 := Int.emod_nonneg a (by omega : n ≠ 0)
  have hm1 := Int.emod_lt_of_pos a hn0
  have hq0 : 0 ≤ a / n := Int.ediv_nonneg ha0 hn0.le
  have hqa : a / n ≤ n * (a / n) := by nlinarith
  have hn1 : n ≠ 0 := by omega
  have hdiv : calculator.divide ⟨a⟩ n = .ok ⟨a / n⟩ := by
    have : wrap64 (a / n) = a / n := wrap64_of_inRange ⟨by omega, by omega⟩
    simp [calculator.divide, hn1, Int.tdiv_eq_ediv ha0 hn0.le, this]
  have hmod : calculator.modulus ⟨a⟩ n = .ok ⟨a % n⟩ := by
    simp [calculator.modulus, hn1, Int.tmod_eq_emod ha0 hn0.le]
  have hk : ((a % n).toNat : Int) = a % n := Int.toNat_of_nonneg hm0
  obtain ⟨ms1, d1, d2, _⟩ := distribute_spec 1 (Or.inl rfl)
    (List.replicate n.toNat (party c (a / n))) (a % n).toNat
    (by rw [List.length_replicate]; omega)
    (by unfold InRange; omega)
    (by
      intro hk0 m hm
      rw [List.eq_of_mem_replicate hm]
      simp only [party]
      have h2 : 2 * (a / n) ≤ n * (a / n) :=
        Int.mul_le_mul_of_nonneg_right (by omega) hq0
      unfold InRange
      omega)
  have hrep : amounts (List.replicate n.toNat (party c (a / n)))
      = List.replicate n.toNat (a / n) := by
    simp [amounts, party, Money.Amount]
  rw [hrep] at d2
  refine ⟨ms1, ?_, d2, ?_, ?_⟩
  · unfold Money.Split
    rw [if_neg (by omega)]
    simp only [hdiv, hmod]
    rw [one_mul, hk] at d1
    simp only [party] at d1
    rw [d1]
  · rw [← length_amounts, d2, length_addFirst, List.length_replicate]
  · rw [d2, sum_addFirst _ _ _ (by rw [List.length_replicate]; omega), List.sum_replicate,
      nsmul_eq_mul, hk, Int.toNat_of_nonneg hn0.le]
    omega

/-! ## Claims on `Split` and `Allocate` -/

/-- C1, at its failing input: `Split(3)` of the negative amount -5 does not return
three parts summing to -5; the leftover loop counts the negative remainder `-2` further
down and runs off the end of the slice, so the call panics.  The sibling `Allocate`,
which hands out a negative leftover with the unit -1, splits the same amount in three
parts that sum to -5. -/
theorem Split_negative_panics :
    calculator.modulus ⟨-5⟩ 3 = .ok ⟨-2⟩ ∧
    Money.Split (mk (-5)) 3 = .error .indexOutOfRange ∧
    Money.Allocate (mk (-5)) [1, 1, 1] = .ok (some [mk (-2), mk (-2), mk (-1)], none) := by
  decide

/-- C2, Allocate exactness: for an `int64` amount of either sign and non-negative
ratios of positive sum, no operation overflowing, `Allocate` returns one part per
ratio, in the order of the ratios (part `i` is within one unit of the raw share of
ratio `i`), and the amounts of the parts sum to the amount exactly. -/
theorem Allocate_exact (c : Currency) (a : Int) (rs : List Int) (h : NoOverflow a rs) :
    ∃ ms, Money.Allocate ⟨⟨a⟩, c⟩ rs = .ok (some ms, none) ∧ ms.length = rs.length ∧
      (amounts ms).sum = a ∧
      ∀ (i : Nat) (r : Int), rs[i]? = some r →
        ∃ p, (amounts ms)[i]? = some p ∧ |p - (a * r).tdiv rs.sum| ≤ 1 := by
  obtain ⟨ms, h1, h2, _, h4, _, _⟩ := Allocate_shape c a rs h
  obtain ⟨ms1, g1, g2, g3⟩ := Allocate_getElem c a rs h
  have hms : ms1 = ms := by
    rw [h1] at g1
    simpa using g1.symm
  subst hms
  refine ⟨ms1, h1, g2, ?_, ?_⟩
  · rw [h2, sum_addFirst _ _ _ (by rw [length_rawShares]; omega), Int.sign_mul_natAbs]
    simp [leftover]
  · intro i r hr
    refine ⟨_, g3 i r hr, ?_⟩
    have hsgn : |(leftover a rs).sign| ≤ 1 := by
      rcases lt_trichotomy (leftover a rs) 0 with hl | hl | hl
      · rw [Int.sign_eq_neg_one_of_neg hl]; simp
      · rw [hl]; simp
      · rw [Int.sign_eq_one_of_pos hl]; simp
    by_cases hi : i < (leftover a rs).natAbs
    · simpa [hi] using hsgn
    · simp [hi]

/-- C2 at the amount 100 with the ratios 30, 30, 30. -/
theorem Allocate_exact_witness :
    NoOverflow 100 [30, 30, 30] ∧
    ∃ ms, Money.Allocate ⟨⟨100⟩, eur⟩ [30, 30, 30] = .ok (some ms, none) ∧
      ms.length = [30, 30, 30].length ∧ (amounts ms).sum = 100 ∧
      ∀ (i : Nat) (r : Int), [30, 30, 30][i]? = some r →
        ∃ p, (amounts ms)[i]? = some p ∧ |p - (100 * r).tdiv [30, 30, 30].sum| ≤ 1 :=
  ⟨by decide, Allocate_exact eur 100 [30, 30, 30] (by decide)⟩

/-- C3, Allocate proportionality bound: on the same inputs every part is within one
minor unit of the exact rational share `a * r / S`, and it is the truncated quotient
`trunc(a * r / S)` or that quotient plus one unit of the sign of the amount. -/
theorem Allocate_proportional (c : Currency) (a : Int) (rs : List Int)
    (h : NoOverflow a rs) :
    ∃ ms, Money.Allocate ⟨⟨a⟩, c⟩ rs = .ok (some ms, none) ∧ ms.length = rs.length ∧
      ∀ (i : Nat) (r : Int), rs[i]? = some r →
        ∃ p, (amounts ms)[i]? = some p ∧
          |(p : ℚ) - (a : ℚ) * (r : ℚ) / ((rs.sum : Int) : ℚ)| ≤ 1 ∧
          (p = (a * r).tdiv rs.sum ∨ p = (a * r).tdiv rs.sum + a.sign) := by
  obtain ⟨ms, h1, _, _, h4, h5, h6⟩ := Allocate_shape c a rs h
  obtain ⟨ms1, g1, g2, g3⟩ := Allocate_getElem c a rs h
  have hms : ms1 = ms := by
    rw [h1] at g1
    simpa using g1.symm
  subst hms
  obtain ⟨_, hrs, hs, _, _⟩ := h
  refine ⟨ms1, h1, g2, ?_⟩
  intro i r hr
  refine ⟨_, g3 i r hr, ?_⟩
  have hr0 : 0 ≤ r := hrs r (List.getElem?_mem hr)
  generalize rs.sum = s at hs ⊢
  generalize leftover a rs = lo at h4 h5 h6 ⊢
  have hsq : (0 : ℚ) < (s : ℚ) := by exact_mod_cast hs
  -- the exact share, as a rational number
  obtain ⟨t, ht⟩ : ∃ t : ℚ, t = (a : ℚ) * (r : ℚ) / (s : ℚ) := ⟨_, rfl⟩
  have hts : t * (s : ℚ) = ((a * r : Int) : ℚ) := by
    rw [ht]
    push_cast
    field_simp
  rw [← ht]
  generalize hq : (a * r).tdiv s = q
  rcases lt_trichotomy a 0 with ha | ha | ha
  · -- negative amount
    obtain ⟨b1, b2, b3⟩ := tdiv_bounds_of_nonpos
      (Int.mul_nonpos_of_nonpos_of_nonneg ha.le hr0) hs
    rw [hq] at b2 b3
    have c2 : ((a * r : Int) : ℚ) ≤ (s : ℚ) * (q : ℚ) := by exact_mod_cast b2
    have c3 : (s : ℚ) * (q : ℚ) - ((a * r : Int) : ℚ) ≤ (s : ℚ) - 1 := by exact_mod_cast b3
    have hsign : a.sign = -1 := Int.sign_eq_neg_one_of_neg ha
    by_cases hi : i < lo.natAbs
    · have hl : lo.sign = -1 :=
        Int.sign_eq_neg_one_of_neg (by have := h6 ha.le; omega)
      rw [if_pos hi, hl, hsign]
      refine ⟨?_, Or.inr rfl⟩
      push_cast
      rw [abs_le]
      constructor <;> nlinarith
    · rw [if_neg hi, add_zero]
      refine ⟨?_, Or.inl rfl⟩
      rw [abs_le]
      constructor <;> nlinarith
  · -- zero amount
    subst ha
    have hl : lo = 0 := by
      have := h5 (le_refl 0)
      have := h6 (le_refl 0)
      omega
    have ht0 : t = 0 := by rw [ht]; simp
    have hq0 : q = 0 := by rw [← hq]; simp
    subst hl
    subst hq0
    rw [ht0]
    simp
  · -- positive amount
    obtain ⟨b1, b2, b3⟩ := tdiv_bounds_of_nonneg (Int.mul_nonneg ha.le hr0) hs
    rw [hq] at b2 b3
    have c2 : (s : ℚ) * (q : ℚ) ≤ ((a * r : Int) : ℚ) := by exact_mod_cast b2
    have c3 : ((a * r : Int) : ℚ) - (s : ℚ) * (q : ℚ) ≤ (s : ℚ) - 1 := by exact_mod_cast b3
    have hsign : a.sign = 1 := Int.sign_eq_one_of_pos ha
    by_cases hi : i < lo.natAbs
    · have hl : lo.sign = 1 :=
        Int.sign_eq_one_of_pos (by have := h5 ha.le; omega)
      rw [if_pos hi, hl, hsign]
      refine ⟨?_, Or.inr rfl⟩
      push_cast
      rw [abs_le]
      constructor <;> nlinarith
    · rw [if_neg hi, add_zero]
      refine ⟨?_, Or.inl rfl⟩
      rw [abs_le]
      constructor <;> nlinarith

/-- C3 at the amount 5 with the ratios 50, 25, 25. -/
theorem Allocate_proportional_witness :
    NoOverflow 5 [50, 25, 25] ∧
    ∃ ms, Money.Allocate ⟨⟨5⟩, eur⟩ [50, 25, 25] = .ok (some ms, none) ∧
      ms.length = [50, 25, 25].length ∧
      ∀ (i : Nat) (r : Int), [50, 25, 25][i]? = some r →
        ∃ p, (amounts ms)[i]? = some p ∧
          |(p : ℚ) - ((5 : Int) : ℚ) * (r : ℚ) / ((([50, 25, 25] : List Int).sum : Int) : ℚ)| ≤ 1 ∧
          (p = (5 * r).tdiv [50, 25, 25].sum ∨ p = (5 * r).tdiv [50, 25, 25].sum + (5 : Int).sign) :=
  ⟨by decide, Allocate_proportional eur 5 [50, 25, 25] (by decide)⟩

/-- C4, at its failing inputs: `Allocate` only rejects an empty ratio sequence, so the
ratios `[0]` and `[0, 0]` pass the guard with the sum 0, and the first call of
`calculator.allocate` divides by that sum: the call panics with a division by zero. -/
theorem Allocate_zero_sum_panics :
    ratioSum [0] = 0 ∧ Money.Allocate (mk 100) [0] = .error .divideByZero ∧
    ratioSum [0, 0] = 0 ∧ Money.Allocate (mk 100) [0, 0] = .error .divideByZero := by
  decide

/-- C5, at its failing input: `Round` on a receiver holding 125 (currency with two
digits) returns 100 and leaves 100, not 125, in the receiver. -/
theorem Round_mutates_receiver :
    Money.Round (mk 125) = .ok (mk 100, mk 100) ∧ (mk 100).Amount ≠ (mk 125).Amount := by
  decide

/-! ## Rounding: what `round` computes -/

theorem pow10_natCast (n : Nat) (hn : n ≤ 18) : calculator.pow10 (n : Int) = 10 ^ n := by
  have h : (n : Int) ≤ 18 := by exact_mod_cast hn
  simp [calculator.pow10, h]

theorem pow10_bounds {n : Nat} (hn : n ≤ 18) :
    (1 : Int) ≤ 10 ^ n ∧ (10 : Int) ^ n ≤ 1000000000000000000 := by
  constructor
  · exact one_le_pow₀ (by norm_num)
  · calc (10 : Int) ^ n ≤ 10 ^ 18 := pow_le_pow_right₀ (by norm_num) hn
      _ = 1000000000000000000 := by norm_num

/-- Truncating an `int64` to a multiple of a positive `int64` stays in range. -/
theorem truncMul_inRange {b e : Int} (hb : InRange b) (he : 0 < e) :
    InRange (b.tdiv e) ∧ InRange (b.tdiv e * e) ∧ e ∣ b.tdiv e * e ∧
      (0 ≤ b → 0 ≤ b.tdiv e * e ∧ b.tdiv e * e ≤ b) ∧
      (b ≤ 0 → b ≤ b.tdiv e * e ∧ b.tdiv e * e ≤ 0) := by
  unfold InRange at hb ⊢
  have hmul : b.tdiv e * e = e * b.tdiv e := by ring
  rcases le_total 0 b with h | h
  · obtain ⟨b1, b2, b3⟩ := tdiv_bounds_of_nonneg h he
    have : b.tdiv e ≤ e * b.tdiv e := by nlinarith
    refine ⟨by omega, by omega, Dvd.intro_left _ rfl, fun _ => by omega, fun _ => by omega⟩
  · obtain ⟨b1, b2, b3⟩ := tdiv_bounds_of_nonpos h he
    have : e * b.tdiv e ≤ b.tdiv e := by nlinarith
    refine ⟨by omega, by omega, Dvd.intro_left _ rfl, fun _ => by omega, fun _ => by omega⟩

/-- The value that `round` computes for a non-zero `int64`, step by step: `x` is the
magnitude, `b` the magnitude after the bump, `t` the truncated multiple. -/
theorem round_eq (a : Int) (n : Nat) (ha : InRange a) (h0 : a ≠ 0) (hn : n ≤ 18) :
    ∃ x b t res : Int,
      calculator.round ⟨a⟩ n = .ok (⟨res⟩, ⟨res⟩) ∧
      x = (if a < 0 then wrap64 (-a) else a) ∧
      b = (if x.tmod (10 ^ n) > (10 ^ n : Int).tdiv 2 then wrap64 (x + 10 ^ n) else x) ∧
      t = b.tdiv (10 ^ n) * 10 ^ n ∧
      res = (if a < 0 then wrap64 (-t) else t) ∧
      InRange x ∧ InRange b ∧ InRange t := by
  obtain ⟨e1, e2⟩ := pow10_bounds hn
  have hx : InRange (if a < 0 then wrap64 (-a) else a) := by
    split
    · exact inRange_wrap64 _
    · exact ha
  have hb0 : ∀ x : Int, InRange x →
      InRange (if x.tmod (10 ^ n) > (10 ^ n : Int).tdiv 2 then wrap64 (x + 10 ^ n) else x) := by
    intro x hx0
    split
    · exact inRange_wrap64 _
    · exact hx0
  have hb := hb0 _ hx
  obtain ⟨t1, t2, _⟩ := truncMul_inRange hb (by omega : (0 : Int) < 10 ^ n)
  have hhalf : wrap64 ((10 ^ n : Int).tdiv 2) = (10 ^ n : Int).tdiv 2 := by
    apply wrap64_of_inRange
    have := truncMul_inRange (b := 10 ^ n) (e := 2) ⟨by omega, by omega⟩ (by norm_num)
    exact this.1
  refine ⟨_, _, _, _, ?_, rfl, rfl, rfl, rfl, hx, hb, t2⟩
  have hne : (10 : Int) ^ n ≠ 0 := by omega
  unfold calculator.round
  simp only [pow10_natCast n hn, calculator.absolute, h0, hne, if_false, hhalf]
  by_cases hneg : a < 0
  · simp only [hneg, if_true] at t1 t2 ⊢
    rw [wrap64_of_inRange t1, wrap64_of_inRange t2]
  · simp only [hneg, if_false] at t1 t2 ⊢
    rw [wrap64_of_inRange t1, wrap64_of_inRange t2]

theorem round_zero (e : Int) : calculator.round ⟨0⟩ e = .ok (⟨0⟩, ⟨0⟩) := by
  simp [calculator.round]

/-- Rounding never panics for an exponent from 0 to 18; the result is an `int64` and a
multiple of the power of ten, whether or not an addition overflowed on the way. -/
theorem round_result (a : Int) (n : Nat) (ha : InRange a) (hn : n ≤ 18) :
    ∃ r, calculator.round ⟨a⟩ n = .ok (⟨r⟩, ⟨r⟩) ∧ InRange r ∧ (10 : Int) ^ n ∣ r := by
  by_cases h0 : a = 0
  · subst h0
    exact ⟨0, round_zero _, by decide, dvd_zero _⟩
  · obtain ⟨e1, _⟩ := pow10_bounds hn
    obtain ⟨x, b, t, res, hr, _, _, ht, hres, _, hb, htr⟩ := round_eq a n ha h0 hn
    obtain ⟨_, _, hdvd, _⟩ := truncMul_inRange hb (by omega : (0 : Int) < 10 ^ n)
    rw [← ht] at hdvd
    refine ⟨res, hr, ?_, ?_⟩
    · rw [hres]
      split
      · exact inRange_wrap64 _
      · exact htr
    · rw [hres]
      split
      · have hw : wrap64 (-t) = -t ∨ wrap64 (-t) = t := by
          unfold InRange at htr
          unfold wrap64
          omega
        rcases hw with hw | hw <;> rw [hw]
        · exact (dvd_neg).mpr hdvd
        · exact hdvd
      · exact hdvd

/-- An amount that is already a multiple of the power of ten is returned unchanged. -/
theorem round_of_dvd (a : Int) (n : Nat) (ha : InRange a) (hn : n ≤ 18)
    (hd : (10 : Int) ^ n ∣ a) : calculator.round ⟨a⟩ n = .ok (⟨a⟩, ⟨a⟩) := by
  by_cases h0 : a = 0
  · subst h0
    exact round_zero _
  · obtain ⟨e1, _⟩ := pow10_bounds hn
    obtain ⟨x, b, t, res, hr, hx, hb, ht, hres, _, _, _⟩ := round_eq a n ha h0 hn
    have hxa : x = a ∨ x = -a := by
      rw [hx]
      unfold InRange at ha
      unfold wrap64
      split <;> omega
    have hdx : (10 : Int) ^ n ∣ x := by
      rcases hxa with h | h <;> rw [h]
      · exact hd
      · exact (dvd_neg).mpr hd
    have hm : x.tmod (10 ^ n) = 0 := Int.tmod_eq_zero_of_dvd hdx
    have hhalf : 0 ≤ (10 ^ n : Int).tdiv 2 := Int.tdiv_nonneg (by omega) (by norm_num)
    have hbx : b = x := by
      rw [hb, hm, if_neg (by omega)]
    have htx : t = x := by
      rw [ht, hbx]
      exact Int.tdiv_mul_cancel hdx
    have : res = a := by
      rw [hres, htx, hx]
      unfold InRange at ha
      unfold wrap64
      split <;> omega
    rw [hr, this]

/-- A multiple of `e` within `e / 2` of `a` is at least as close to `a` as any other
multiple of `e`. -/
theorem nearest_of_close {e r a : Int} (he : 0 < e) (hd : e ∣ r) (hc : |r - a| ≤ e / 2)
    (k : Int) : |r - a| ≤ |k * e - a| := by
  obtain ⟨j, rfl⟩ := hd
  have h2 : 2 * (e / 2) ≤ e := by omega
  rw [abs_le] at hc
  rcases lt_trichotomy k j with h | h | h
  · have h3 : k * e ≤ e * j - e := by nlinarith
    refine le_trans ?_ (neg_le_abs _)
    rw [abs_le]
    constructor <;> omega
  · subst h
    rw [mul_comm]
  · have h3 : e * j + e ≤ k * e := by nlinarith
    refine le_trans ?_ (le_abs_self _)
    rw [abs_le]
    constructor <;> omega

/-- The result of `round` on a non-zero amount other than the smallest `int64`, when
the bump (if taken) does not overflow: the magnitude loses its remainder and gains the
power of ten exactly when the remainder exceeds half of it; the sign is reapplied. -/
theorem round_exact (a : Int) (n : Nat) (ha : InRange a) (hmin : a ≠ -9223372036854775808)
    (h0 : a ≠ 0) (hn : n ≤ 18)
    (hov : |a| % 10 ^ n > 10 ^ n / 2 → |a| + 10 ^ n ≤ 9223372036854775807) :
    calculator.round ⟨a⟩ n
      = .ok (⟨a.sign * (|a| - |a| % 10 ^ n + if |a| % 10 ^ n > 10 ^ n / 2 then 10 ^ n else 0)⟩,
          ⟨a.sign * (|a| - |a| % 10 ^ n + if |a| % 10 ^ n > 10 ^ n / 2 then 10 ^ n else 0)⟩) := by
  obtain ⟨e1, e2⟩ := pow10_bounds hn
  obtain ⟨x, b, t, res, hr, hx, hb, ht, hres, _, _, _⟩ := round_eq a n ha h0 hn
  unfold InRange at ha
  generalize hE : (10 : Int) ^ n = E at *
  obtain ⟨y, hy⟩ : ∃ y : Int, y = |a| := ⟨_, rfl⟩
  rw [← hy] at hov ⊢
  have hy1 : a < 0 → y = -a := fun h => by rw [hy, abs_of_neg h]
  have hy2 : 0 ≤ a → y = a := fun h => by rw [hy, abs_of_nonneg h]
  have hypos : 0 ≤ y := by rw [hy]; exact abs_nonneg a
  have hsign : a.sign * y = a ∧ (a < 0 → a.sign = -1) ∧ (0 < a → a.sign = 1) :=
    ⟨by rw [hy]; exact Int.sign_mul_abs a, Int.sign_eq_neg_one_of_neg, Int.sign_eq_one_of_pos⟩
  have hxy : x = y := by
    rw [hx]
    unfold wrap64
    split <;> omega
  have hhalf : E.tdiv 2 = E / 2 := Int.tdiv_eq_ediv (by omega) (by norm_num)
  have hmod : y.tmod E = y % E := Int.tmod_eq_emod hypos (by omega)
  have hdm := Int.ediv_add_emod y E
  have hm0 := Int.emod_nonneg y (by omega : E ≠ 0)
  have hm1 := Int.emod_lt_of_pos y (by omega : 0 < E)
  rw [hxy, hhalf, hmod] at hb
  by_cases hbump : y % E > E / 2
  · have hov1 := hov hbump
    have hb1 : b = y + E := by
      rw [hb, if_pos hbump]
      unfold wrap64
      omega
    have ht1 : t = y - y % E + E := by
      rw [ht, hb1, Int.tdiv_eq_ediv (by omega) (by omega)]
      have : (y + E) / E = y / E + 1 := by
        have := Int.add_mul_ediv_right y 1 (by omega : E ≠ 0)
        simpa using this
      rw [this]
      have : (y / E + 1) * E = E * (y / E) + E := by ring
      omega
    have : res = a.sign * (y - y % E + E) := by
      rw [hres, ht1]
      rcases lt_or_gt_of_ne h0 with hneg | hpos
      · rw [if_pos hneg, hsign.2.1 hneg]
        unfold wrap64
        omega
      · rw [if_neg (by omega), hsign.2.2 hpos]
        omega
    rw [hr, this, if_pos hbump]
  · have hb1 : b = y := by rw [hb, if_neg hbump]
    have ht1 : t = y - y % E := by
      rw [ht, hb1, Int.tdiv_eq_ediv hypos (by omega)]
      have : y / E * E = E * (y / E) := by ring
      omega
    have : res = a.sign * (y - y % E) := by
      rw [hres, ht1]
      rcases lt_or_gt_of_ne h0 with hneg | hpos
      · rw [if_pos hneg, hsign.2.1 hneg]
        unfold wrap64
        omega
      · rw [if_neg (by omega), hsign.2.2 hpos]
        omega
    rw [hr, this, if_neg hbump, add_zero]

/-! ## Claims on rounding -/

/-- C6 as stated fails: the amount 9223372036854775799 is an `int64`, its remainder 99
exceeds 50, the bump by 100 overflows, and `round` returns -9223372036854775700, which
is not within 50 of the amount.  It fails at the smallest `int64` too: its negation
overflows, and `round` returns the positive 9223372036854775800. -/
theorem round_nearest_counterexample :
    (InRange 9223372036854775799 ∧
      ∃ r, calculator.round ⟨9223372036854775799⟩ 2 = .ok (⟨r⟩, ⟨r⟩) ∧
        ¬ (|r - 9223372036854775799| ≤ 10 ^ 2 / 2)) ∧
    (InRange (-9223372036854775808) ∧
      ∃ r, calculator.round ⟨-9223372036854775808⟩ 2 = .ok (⟨r⟩, ⟨r⟩) ∧
        ¬ (|r - (-9223372036854775808)| ≤ 10 ^ 2 / 2)) := by
  refine ⟨⟨by decide, -9223372036854775700, by decide, ?_⟩,
    ⟨by decide, 9223372036854775800, by decide, ?_⟩⟩
  · norm_num
  · norm_num

/-- C6, amended: for every `int64` amount `a` other than the smallest one and every
exponent `n` from 0 to 18 for which the bump does not overflow (`|a| + 10 ^ n` is an
`int64` whenever the remainder `|a| mod 10 ^ n` exceeds `10 ^ n / 2`), `round` returns a
multiple of `10 ^ n` within `10 ^ n / 2` of `a`, so that no other multiple is strictly
closer; `round` of 0 is 0 for any exponent; the test cases of the repository
are instances. -/
theorem round_nearest :
    (∀ (a : Int) (n : Nat), InRange a → a ≠ -9223372036854775808 → n ≤ 18 →
      (|a| % 10 ^ n > 10 ^ n / 2 → |a| + 10 ^ n ≤ 9223372036854775807) →
      ∃ r, calculator.round ⟨a⟩ n = .ok (⟨r⟩, ⟨r⟩) ∧ (10 : Int) ^ n ∣ r ∧
        |r - a| ≤ 10 ^ n / 2 ∧ ∀ k : Int, |r - a| ≤ |k * 10 ^ n - a|) ∧
    (∀ e : Int, calculator.round ⟨0⟩ e = .ok (⟨0⟩, ⟨0⟩)) ∧
    calculator.round ⟨125⟩ 2 = .ok (⟨100⟩, ⟨100⟩) ∧
    calculator.round ⟨175⟩ 2 = .ok (⟨200⟩, ⟨200⟩) ∧
    calculator.round ⟨349⟩ 2 = .ok (⟨300⟩, ⟨300⟩) ∧
    calculator.round ⟨351⟩ 2 = .ok (⟨400⟩, ⟨400⟩) ∧
    calculator.round ⟨-1⟩ 2 = .ok (⟨0⟩, ⟨0⟩) ∧
    calculator.round ⟨-75⟩ 2 = .ok (⟨-100⟩, ⟨-100⟩) ∧
    calculator.round ⟨12555⟩ 3 = .ok (⟨13000⟩, ⟨13000⟩) := by
  refine ⟨?_, round_zero, by decide, by decide, by decide, by decide, by decide, by decide,
    by decide⟩
  intro a n ha hmin hn hov
  obtain ⟨e1, e2⟩ := pow10_bounds hn
  by_cases h0 : a = 0
  · subst h0
    refine ⟨0, round_zero _, dvd_zero _, ?_, ?_⟩
    · simp only [sub_zero, abs_zero]
      omega
    · intro k
      simp only [sub_zero, abs_zero]
      exact abs_nonneg _
  · have hpos : 0 ≤ |a| := abs_nonneg a
    have hr := round_exact a n ha hmin h0 hn hov
    obtain ⟨r, hr1, _, hr3⟩ := round_result a n ha hn
    have hrv : r = a.sign * (|a| - |a| % 10 ^ n
        + if |a| % 10 ^ n > 10 ^ n / 2 then 10 ^ n else 0) := by
      rw [hr1] at hr
      simpa using hr
    have hclose : |r - a| ≤ 10 ^ n / 2 := by
      have hm0 := Int.emod_nonneg |a| (by omega : (10 : Int) ^ n ≠ 0)
      have hm1 := Int.emod_lt_of_pos |a| (by omega : (0 : Int) < 10 ^ n)
      have hsa : a.sign * |a| = a := Int.sign_mul_abs a
      rw [hrv, abs_le]
      generalize (10 : Int) ^ n = E at *
      generalize |a| % E = m at *
      rcases lt_or_gt_of_ne h0 with hneg | hgt
      · rw [Int.sign_eq_neg_one_of_neg hneg] at hsa ⊢
        split <;> constructor <;> omega
      · rw [Int.sign_eq_one_of_pos hgt] at hsa ⊢
        split <;> constructor <;> omega
    exact ⟨r, hr1, hr3, hclose, nearest_of_close (by omega) hr3 hclose⟩

/-- C6 amended, at the amount -75 and the exponent 2. -/
theorem round_nearest_witness :
    InRange (-75) ∧ (-75 : Int) ≠ -9223372036854775808 ∧ (2 : Nat) ≤ 18 ∧
    (|(-75 : Int)| % 10 ^ 2 > 10 ^ 2 / 2 → |(-75 : Int)| + 10 ^ 2 ≤ 9223372036854775807) ∧
    ∃ r, calculator.round ⟨-75⟩ ((2 : Nat) : Int) = .ok (⟨r⟩, ⟨r⟩) ∧ (10 : Int) ^ 2 ∣ r ∧
      |r - (-75)| ≤ 10 ^ 2 / 2 ∧ ∀ k : Int, |r - (-75)| ≤ |k * 10 ^ 2 - (-75)| :=
  ⟨by decide, by decide, by decide, fun _ => by norm_num,
    round_nearest.1 (-75) 2 (by decide) (by decide) (by decide) (fun _ => by norm_num)⟩

theorem pow10_large (n : Nat) (hn : 18 < n) :
    calculator.pow10 (n : Int) = -9223372036854775808 := by
  have h1 : ¬ (n : Int) < 0 := by omega
  have h2 : ¬ (n : Int) ≤ 18 := by omega
  unfold calculator.pow10
  rw [if_neg h1, if_neg h2]

/-- The steps of `round` on a non-zero amount, for any non-zero value `p` of the power
of ten. -/
theorem round_steps (a e p : Int) (hp : calculator.pow10 e = p) (hp0 : p ≠ 0) (h0 : a ≠ 0) :
    ∃ x b t res : Int,
      calculator.round ⟨a⟩ e = .ok (⟨res⟩, ⟨res⟩) ∧
      x = (if a < 0 then wrap64 (-a) else a) ∧
      b = (if x.tmod p > wrap64 (p.tdiv 2) then wrap64 (x + p) else x) ∧
      t = wrap64 (wrap64 (b.tdiv p) * p) ∧
      res = (if a < 0 then wrap64 (-t) else t) := by
  refine ⟨_, _, _, _, ?_, rfl, rfl, rfl, rfl⟩
  unfold calculator.round
  simp only [hp, calculator.absolute, h0, hp0, if_false]
  by_cases hneg : a < 0
  · simp only [hneg, if_true]
  · simp only [hneg, if_false]

/-- For an exponent above 18, where the power of ten is taken as the smallest `int64`,
`round` returns 0 for every amount and leaves 0 in its argument. -/
theorem round_large (a : Int) (n : Nat) (ha : InRange a) (hn : 18 < n) :
    calculator.round ⟨a⟩ n = .ok (⟨0⟩, ⟨0⟩) := by
  by_cases h0 : a = 0
  · subst h0
    exact round_zero _
  · obtain ⟨x, b, t, res, hr, hx, hb, ht, hres⟩ :=
      round_steps a n (-9223372036854775808) (pow10_large n hn) (by decide) h0
    unfold InRange at ha
    have hhalf : wrap64 ((-9223372036854775808 : Int).tdiv 2) = -4611686018427387904 := by
      decide
    rw [hhalf] at hb
    have ht0 : t = 0 := by
      by_cases hmin : a = -9223372036854775808
      · have hx1 : x = -9223372036854775808 := by
          rw [hx, hmin]
          decide
        rw [hx1] at hb
        have hb1 : b = 0 := by
          rw [hb]
          decide
        rw [ht, hb1]
        decide
      · have hx1 : 0 < x ∧ x ≤ 9223372036854775807 := by
          rw [hx]
          unfold wrap64
          split <;> omega
        have hm : x.tmod (-9223372036854775808) = x := by
          rw [Int.tmod_neg]
          exact Int.tmod_eq_of_lt hx1.1.le (by omega)
        have hb1 : b = x - 9223372036854775808 := by
          rw [hb, hm, if_pos (by omega)]
          unfold wrap64
          omega
        have hq : b.tdiv (-9223372036854775808) = 0 := by
          have e : b = -(9223372036854775808 - x) := by omega
          rw [Int.tdiv_neg, e, Int.neg_tdiv, neg_neg]
          exact Int.tdiv_eq_zero_of_lt (by omega) (by omega)
        rw [ht, hq]
        decide
    have hres0 : res = 0 := by
      rw [hres, ht0]
      split <;> decide
    rw [hr, hres0]

/-- C8, Round idempotence: for every `int64` amount and every exponent `n ≥ 0`, `round`
returns a result, rounding that result again at the same exponent returns it
unchanged, and an amount that is already a multiple of `10 ^ n` is returned as it is. -/
theorem round_idempotent (a : Int) (n : Nat) (ha : InRange a) :
    (∃ r, calculator.round ⟨a⟩ n = .ok (r, r) ∧ calculator.round r n = .ok (r, r)) ∧
    ((10 : Int) ^ n ∣ a → calculator.round ⟨a⟩ n = .ok (⟨a⟩, ⟨a⟩)) := by
  by_cases hn : n ≤ 18
  · refine ⟨?_, round_of_dvd a n ha hn⟩
    obtain ⟨r, h1, h2, h3⟩ := round_result a n ha hn
    exact ⟨⟨r⟩, h1, round_of_dvd r n h2 hn h3⟩
  · have hn1 : 18 < n := by omega
    refine ⟨⟨⟨0⟩, round_large a n ha hn1, round_zero _⟩, ?_⟩
    intro hd
    have hbig : (10 : Int) ^ 19 ≤ 10 ^ n := pow_le_pow_right₀ (by norm_num) (by omega)
    have habs : |a| < 10 ^ n := by
      unfold InRange at ha
      have : |a| ≤ 9223372036854775808 := abs_le.mpr ⟨by omega, by omega⟩
      have : (10 : Int) ^ 19 = 10000000000000000000 := by norm_num
      omega
    have ha0 : a = 0 := Int.eq_zero_of_abs_lt_dvd hd habs
    rw [ha0]
    exact round_zero _

/-- C8 at the amount 351, at the exponent 2 and at the exponent 19. -/
theorem round_idempotent_witness :
    InRange 351 ∧
    ((∃ r, calculator.round ⟨351⟩ ((2 : Nat) : Int) = .ok (r, r) ∧
      calculator.round r ((2 : Nat) : Int) = .ok (r, r)) ∧
    ((10 : Int) ^ 2 ∣ 351 → calculator.round ⟨351⟩ ((2 : Nat) : Int) = .ok (⟨351⟩, ⟨351⟩))) ∧
    ((∃ r, calculator.round ⟨351⟩ ((19 : Nat) : Int) = .ok (r, r) ∧
      calculator.round r ((19 : Nat) : Int) = .ok (r, r)) ∧
    ((10 : Int) ^ 19 ∣ 351 → calculator.round ⟨351⟩ ((19 : Nat) : Int) = .ok (⟨351⟩, ⟨351⟩))) :=
  ⟨by decide, round_idempotent 351 2 (by decide), round_idempotent 351 19 (by decide)⟩

/-! ## Claims on the argument checks -/

/-- The leftover loop can only fail by running off the end of the slice. -/
theorem distribute_error (sub : Int) : ∀ (ms : List Money) (l : Int) (p : Panic),
    distribute sub ms l = .error p → p = .indexOutOfRange := by
  intro ms
  induction ms with
  | nil =>
    intro l p h
    unfold distribute at h
    split at h
    · cases h
    · cases h
      rfl
  | cons m rest ih =>
    intro l p h
    unfold distribute at h
    split at h
    · cases h
    · split at h
      · rename_i q hq
        cases h
        exact ih _ _ hq
      · cases h

/-- C9, Split fails exactly on a non-positive count: for `n ≤ 0` the call returns the
error together with a nil result, whatever the amount; for `n > 0` it does not return
that error: it returns a non-nil result with a nil error, or it does not return at all
(the leftover loop panics). -/
theorem Split_error_iff (m : Money) (n : Int) :
    (n ≤ 0 → Money.Split m n = .ok (none, some "split must be higher than zero")) ∧
    (0 < n → (∃ ms, Money.Split m n = .ok (some ms, none)) ∨
      Money.Split m n = .error .indexOutOfRange) := by
  constructor
  · intro h
    simp [Money.Split, h]
  · intro h
    have h1 : ¬ n ≤ 0 := by omega
    have h2 : n ≠ 0 := by omega
    simp only [Money.Split, h1, if_false, calculator.divide, calculator.modulus, h2]
    split
    · rename_i q hq
      rw [distribute_error _ _ _ _ hq]
      exact Or.inr rfl
    · exact Or.inl ⟨_, rfl⟩

/-- C9 at the counts -10 and 0 of the tests, and at the count 3. -/
theorem Split_error_iff_witness :
    ((-10 : Int) ≤ 0 ∧
      Money.Split (mk 100) (-10) = .ok (none, some "split must be higher than zero")) ∧
    ((0 : Int) ≤ 0 ∧
      Money.Split (mk 100) 0 = .ok (none, some "split must be higher than zero")) ∧
    ((0 : Int) < 3 ∧ ((∃ ms, Money.Split (mk 100) 3 = .ok (some ms, none)) ∨
      Money.Split (mk 100) 3 = .error .indexOutOfRange)) :=
  ⟨⟨by decide, (Split_error_iff (mk 100) (-10)).1 (by decide)⟩,
    ⟨by decide, (Split_error_iff (mk 100) 0).1 (by decide)⟩,
    ⟨by decide, (Split_error_iff (mk 100) 3).2 (by decide)⟩⟩

/-- C10, Allocate fails exactly on an empty ratio sequence: with no ratios the call
returns the error together with a nil result, whatever the amount; with at least one
ratio it does not return that error: it returns a non-nil result with a nil error, or
it does not return at all (a panic). -/
theorem Allocate_error_iff (m : Money) (rs : List Int) :
    (rs = [] → Money.Allocate m rs = .ok (none, some "no ratios specified")) ∧
    (rs ≠ [] → (∃ ms, Money.Allocate m rs = .ok (some ms, none)) ∨
      ∃ p, Money.Allocate m rs = .error p) := by
  constructor
  · intro h
    subst h
    simp [Money.Allocate]
  · intro h
    have h1 : rs.length ≠ 0 := by
      cases rs with
      | nil => exact absurd rfl h
      | cons _ _ => simp
    simp only [Money.Allocate, h1, if_false]
    split
    · exact Or.inr ⟨_, rfl⟩
    · split
      · exact Or.inr ⟨_, rfl⟩
      · exact Or.inl ⟨_, rfl⟩

/-- C10 at no ratios, as in the tests, and at the ratios 50, 50. -/
theorem Allocate_error_iff_witness :
    (([] : List Int) = [] ∧
      Money.Allocate (mk 100) [] = .ok (none, some "no ratios specified")) ∧
    (([50, 50] : List Int) ≠ [] ∧ ((∃ ms, Money.Allocate (mk 100) [50, 50] = .ok (some ms, none)) ∨
      ∃ p, Money.Allocate (mk 100) [50, 50] = .error p)) :=
  ⟨⟨rfl, (Allocate_error_iff (mk 100) []).1 rfl⟩,
    ⟨by decide, (Allocate_error_iff (mk 100) [50, 50]).2 (by decide)⟩⟩

/-! ## Claims on the currency check, the signs and the comparisons -/

theorem assertSameCurrencyData_of_eq (m om : Money) (h : m.CurrencyData = om.CurrencyData) :
    m.assertSameCurrencyData om = none := by
  simp [Money.assertSameCurrencyData, Money.SameCurrencyData, Currency.equals, h]

theorem assertSameCurrencyData_of_ne (m om : Money) (h : m.CurrencyData ≠ om.CurrencyData) :
    m.assertSameCurrencyData om = some "currencies don't match" := by
  simp [Money.assertSameCurrencyData, Money.SameCurrencyData, Currency.equals, h]

/-- C11, Currency mismatch: each of `Add`, `Subtract`, `Equals`, `GreaterThan`,
`GreaterThanOrEqual`, `LessThan` and `LessThanOrEqual` returns an error exactly when the
currency descriptors of the two money values differ, whatever the amounts; with the
error `Add` and `Subtract` return nil and the comparisons return false. -/
theorem currency_mismatch (m om : Money) :
    (m.CurrencyData ≠ om.CurrencyData →
      m.Add om = (none, some "currencies don't match") ∧
      m.Subtract om = (none, some "currencies don't match") ∧
      m.Equals om = (false, some "currencies don't match") ∧
      m.GreaterThan om = (false, some "currencies don't match") ∧
      m.GreaterThanOrEqual om = (false, some "currencies don't match") ∧
      m.LessThan om = (false, some "currencies don't match") ∧
      m.LessThanOrEqual om = (false, some "currencies don't match")) ∧
    (m.CurrencyData = om.CurrencyData →
      (m.Add om).2 = none ∧ (m.Subtract om).2 = none ∧ (m.Equals om).2 = none ∧
      (m.GreaterThan om).2 = none ∧ (m.GreaterThanOrEqual om).2 = none ∧
      (m.LessThan om).2 = none ∧ (m.LessThanOrEqual om).2 = none) := by
  constructor
  · intro h
    have e := assertSameCurrencyData_of_ne m om h
    simp [Money.Add, Money.Subtract, Money.Equals, Money.GreaterThan,
      Money.GreaterThanOrEqual, Money.LessThan, Money.LessThanOrEqual, e]
  · intro h
    have e := assertSameCurrencyData_of_eq m om h
    simp [Money.Add, Money.Subtract, Money.Equals, Money.GreaterThan,
      Money.GreaterThanOrEqual, Money.LessThan, Money.LessThanOrEqual, e]

/-- C11 at 100 pence against 200 euro cents, and at 100 against 200 euro cents. -/
theorem currency_mismatch_witness :
    ((⟨⟨100⟩, gbp⟩ : Money).CurrencyData ≠ (mk 200).CurrencyData ∧
      Money.Add ⟨⟨100⟩, gbp⟩ (mk 200) = (none, some "currencies don't match") ∧
      Money.LessThan ⟨⟨100⟩, gbp⟩ (mk 200) = (false, some "currencies don't match")) ∧
    ((mk 100).CurrencyData = (mk 200).CurrencyData ∧
      (Money.Add (mk 100) (mk 200)).2 = none ∧ (Money.LessThan (mk 100) (mk 200)).2 = none) :=
  ⟨⟨by decide, ((currency_mismatch ⟨⟨100⟩, gbp⟩ (mk 200)).1 (by decide)).1,
      ((currency_mismatch ⟨⟨100⟩, gbp⟩ (mk 200)).1 (by decide)).2.2.2.2.2.1⟩,
    ⟨rfl, ((currency_mismatch (mk 100) (mk 200)).2 rfl).1,
      ((currency_mismatch (mk 100) (mk 200)).2 rfl).2.2.2.2.2.1⟩⟩

/-- C12 as stated fails: the smallest `int64` is an amount, its negation wraps back to
itself, and `absolute` returns it, a negative value. -/
theorem absolute_min_counterexample :
    InRange (-9223372036854775808) ∧
    calculator.absolute ⟨-9223372036854775808⟩ = ⟨-9223372036854775808⟩ ∧
    ¬ (0 ≤ (calculator.absolute ⟨-9223372036854775808⟩).Val) := by
  decide

/-- C12, amended: for every `int64` amount other than the smallest one, `absolute`
returns a non-negative value, the absolute value of the amount. -/
theorem absolute_nonneg (a : Int) (ha : InRange a) (hmin : a ≠ -9223372036854775808) :
    0 ≤ (calculator.absolute ⟨a⟩).Val ∧ (calculator.absolute ⟨a⟩).Val = |a| := by
  unfold InRange at ha
  unfold calculator.absolute
  by_cases h : a < 0
  · have hw : wrap64 (-a) = -a := wrap64_of_inRange ⟨by omega, by omega⟩
    simp only [h, if_true, hw, abs_of_neg h]
    exact ⟨by omega, trivial⟩
  · simp only [h, if_false, abs_of_nonneg (not_lt.mp h)]
    exact ⟨by omega, trivial⟩

/-- C12 amended, at the amount -1 of the tests. -/
theorem absolute_nonneg_witness :
    InRange (-1) ∧ (-1 : Int) ≠ -9223372036854775808 ∧
    0 ≤ (calculator.absolute ⟨-1⟩).Val ∧ (calculator.absolute ⟨-1⟩).Val = |(-1 : Int)| :=
  ⟨by decide, by decide, absolute_nonneg (-1) (by decide) (by decide)⟩

/-- C13, `negative` forces a non-positive result: for every `int64` amount the result
is at most zero; zero maps to zero; a non-positive amount is returned as it is and a
positive one negated, so the result is minus the absolute value; applying `negative`
twice is applying it once. -/
theorem negative_nonpos (a : Int) (ha : InRange a) :
    (calculator.negative ⟨a⟩).Val ≤ 0 ∧ calculator.negative ⟨0⟩ = ⟨0⟩ ∧
    (a ≤ 0 → calculator.negative ⟨a⟩ = ⟨a⟩) ∧ (0 < a → calculator.negative ⟨a⟩ = ⟨-a⟩) ∧
    (calculator.negative ⟨a⟩).Val = -|a| ∧
    calculator.negative (calculator.negative ⟨a⟩) = calculator.negative ⟨a⟩ := by
  unfold InRange at ha
  by_cases h : a > 0
  · have hw : wrap64 (-a) = -a := wrap64_of_inRange ⟨by omega, by omega⟩
    have e : calculator.negative ⟨a⟩ = ⟨-a⟩ := by simp [calculator.negative, h, hw]
    have e2 : calculator.negative ⟨-a⟩ = ⟨-a⟩ := by
      unfold calculator.negative
      rw [if_neg (by show ¬ (-a > 0); omega)]
    refine ⟨by rw [e]; simp only; omega, by decide, fun h1 => by omega, fun _ => e, ?_, ?_⟩
    · rw [e, abs_of_pos h]
    · rw [e, e2]
  · have e : calculator.negative ⟨a⟩ = ⟨a⟩ := by simp [calculator.negative, h]
    refine ⟨by rw [e]; simp only; omega, by decide, fun _ => e, fun h1 => absurd h1 h, ?_, ?_⟩
    · rw [e, abs_of_nonpos (not_lt.mp h), neg_neg]
    · rw [e, e]

/-- C13 at the amount 1 of the tests. -/
theorem negative_nonpos_witness :
    InRange 1 ∧
    ((calculator.negative ⟨1⟩).Val ≤ 0 ∧ calculator.negative ⟨0⟩ = ⟨0⟩ ∧
    ((1 : Int) ≤ 0 → calculator.negative ⟨1⟩ = ⟨1⟩) ∧
    ((0 : Int) < 1 → calculator.negative ⟨1⟩ = ⟨-1⟩) ∧
    (calculator.negative ⟨1⟩).Val = -|(1 : Int)| ∧
    calculator.negative (calculator.negative ⟨1⟩) = calculator.negative ⟨1⟩) :=
  ⟨by decide, negative_nonpos 1 (by decide)⟩

theorem compare_eq (m om : Money) :
    (m.compare om = 0 ↔ m.Amount = om.Amount) ∧ (m.compare om = 1 ↔ m.Amount > om.Amount) ∧
    (m.compare om = -1 ↔ m.Amount < om.Amount) ∧ (m.compare om ≥ 0 ↔ m.Amount ≥ om.Amount) ∧
    (m.compare om ≤ 0 ↔ m.Amount ≤ om.Amount) := by
  unfold Money.compare Money.Amount
  split
  · refine ⟨?_, ?_, ?_, ?_, ?_⟩ <;> constructor <;> intro _ <;> omega
  · split
    · refine ⟨?_, ?_, ?_, ?_, ?_⟩ <;> constructor <;> intro _ <;> omega
    · refine ⟨?_, ?_, ?_, ?_, ?_⟩ <;> constructor <;> intro _ <;> omega

/-- C16, comparisons agree with the integer order: for two money values of equal
currency the five comparisons return, without error, whether the first amount is equal
to, greater than, at least, less than, at most the second; so exactly one of
`LessThan`, `Equals`, `GreaterThan` is true. -/
theorem comparisons_agree (m om : Money) (h : m.CurrencyData = om.CurrencyData) :
    m.Equals om = (decide (m.Amount = om.Amount), none) ∧
    m.GreaterThan om = (decide (m.Amount > om.Amount), none) ∧
    m.GreaterThanOrEqual om = (decide (m.Amount ≥ om.Amount), none) ∧
    m.LessThan om = (decide (m.Amount < om.Amount), none) ∧
    m.LessThanOrEqual om = (decide (m.Amount ≤ om.Amount), none) ∧
    (((m.LessThan om).1 = true ∧ (m.Equals om).1 = false ∧ (m.GreaterThan om).1 = false) ∨
     ((m.LessThan om).1 = false ∧ (m.Equals om).1 = true ∧ (m.GreaterThan om).1 = false) ∨
     ((m.LessThan om).1 = false ∧ (m.Equals om).1 = false ∧ (m.GreaterThan om).1 = true)) := by
  have e := assertSameCurrencyData_of_eq m om h
  obtain ⟨c0, c1, c2, c3, c4⟩ := compare_eq m om
  have h1 : m.Equals om = (decide (m.Amount = om.Amount), none) := by
    simp only [Money.Equals, e, decide_eq_decide.mpr c0]
  have h2 : m.GreaterThan om = (decide (m.Amount > om.Amount), none) := by
    simp only [Money.GreaterThan, e, decide_eq_decide.mpr c1]
  have h3 : m.GreaterThanOrEqual om = (decide (m.Amount ≥ om.Amount), none) := by
    simp only [Money.GreaterThanOrEqual, e, decide_eq_decide.mpr c3]
  have h4 : m.LessThan om = (decide (m.Amount < om.Amount), none) := by
    simp only [Money.LessThan, e, decide_eq_decide.mpr c2]
  have h5 : m.LessThanOrEqual om = (decide (m.Amount ≤ om.Amount), none) := by
    simp only [Money.LessThanOrEqual, e, decide_eq_decide.mpr c4]
  refine ⟨h1, h2, h3, h4, h5, ?_⟩
  rw [h1, h2, h4]
  rcases lt_trichotomy m.Amount om.Amount with hlt | heq | hgt
  · refine Or.inl ⟨?_, ?_, ?_⟩ <;> simp <;> omega
  · refine Or.inr (Or.inl ⟨?_, ?_, ?_⟩) <;> simp <;> omega
  · refine Or.inr (Or.inr ⟨?_, ?_, ?_⟩) <;> simp <;> omega

/-- C16 at the amounts 0 and 1 of the tests. -/
theorem comparisons_agree_witness :
    (mk 0).CurrencyData = (mk 1).CurrencyData ∧
    Money.Equals (mk 0) (mk 1) = (false, none) ∧
    Money.GreaterThan (mk 0) (mk 1) = (false, none) ∧
    Money.GreaterThanOrEqual (mk 0) (mk 1) = (false, none) ∧
    Money.LessThan (mk 0) (mk 1) = (true, none) ∧
    Money.LessThanOrEqual (mk 0) (mk 1) = (true, none) :=
  ⟨rfl, (comparisons_agree (mk 0) (mk 1) rfl).1, (comparisons_agree (mk 0) (mk 1) rfl).2.1,
    (comparisons_agree (mk 0) (mk 1) rfl).2.2.1, (comparisons_agree (mk 0) (mk 1) rfl).2.2.2.1,
    (comparisons_agree (mk 0) (mk 1) rfl).2.2.2.2.1⟩

theorem wrap64_congr (x : Int) : (18446744073709551616 : Int) ∣ wrap64 x - x := by
  unfold wrap64
  omega

/-- C17, `Add` and `Subtract` are plain signed 64-bit arithmetic without overflow
detection: for two money values of equal currency they return no error and a money
value of the first one's currency whose amount is the sum (the difference) wrapped
modulo `2 ^ 64` into the `int64` range; the result is the exact sum (difference)
whenever that fits; the test cases are instances, and adding 1 to the largest `int64`
silently gives the smallest one. -/
theorem add_subtract_wrap :
    (∀ m om : Money, m.CurrencyData = om.CurrencyData →
      m.Add om = (some ⟨⟨wrap64 (m.Amount + om.Amount)⟩, m.CurrencyData⟩, none) ∧
      m.Subtract om = (some ⟨⟨wrap64 (m.Amount - om.Amount)⟩, m.CurrencyData⟩, none) ∧
      InRange (wrap64 (m.Amount + om.Amount)) ∧
      (18446744073709551616 : Int) ∣ wrap64 (m.Amount + om.Amount) - (m.Amount + om.Amount) ∧
      InRange (wrap64 (m.Amount - om.Amount)) ∧
      (18446744073709551616 : Int) ∣ wrap64 (m.Amount - om.Amount) - (m.Amount - om.Amount) ∧
      (InRange (m.Amount + om.Amount) → wrap64 (m.Amount + om.Amount) = m.Amount + om.Amount) ∧
      (InRange (m.Amount - om.Amount) → wrap64 (m.Amount - om.Amount) = m.Amount - om.Amount)) ∧
    Money.Add (mk 5) (mk 5) = (some (mk 10), none) ∧
    Money.Add (mk 10) (mk 5) = (some (mk 15), none) ∧
    Money.Add (mk 1) (mk (-1)) = (some (mk 0), none) ∧
    Money.Subtract (mk 5) (mk 5) = (some (mk 0), none) ∧
    Money.Subtract (mk 10) (mk 5) = (some (mk 5), none) ∧
    Money.Subtract (mk 1) (mk (-1)) = (some (mk 2), none) ∧
    Money.Add (mk 9223372036854775807) (mk 1) = (some (mk (-9223372036854775808)), none) := by
  refine ⟨?_, by decide, by decide, by decide, by decide, by decide, by decide, by decide⟩
  intro m om h
  have e := assertSameCurrencyData_of_eq m om h
  refine ⟨?_, ?_, inRange_wrap64 _, wrap64_congr _, inRange_wrap64 _, wrap64_congr _,
    wrap64_of_inRange, wrap64_of_inRange⟩
  · simp only [Money.Add, e, calculator.add, Money.Amount]
  · simp only [Money.Subtract, e, calculator.subtract, Money.Amount]

/-- C17 at the amounts 10 and 5 of the tests. -/
theorem add_subtract_wrap_witness :
    (mk 10).CurrencyData = (mk 5).CurrencyData ∧
    Money.Add (mk 10) (mk 5)
      = (some ⟨⟨wrap64 ((mk 10).Amount + (mk 5).Amount)⟩, (mk 10).CurrencyData⟩, none) ∧
    Money.Subtract (mk 10) (mk 5)
      = (some ⟨⟨wrap64 ((mk 10).Amount - (mk 5).Amount)⟩, (mk 10).CurrencyData⟩, none) :=
  ⟨rfl, (add_subtract_wrap.1 (mk 10) (mk 5) rfl).1, (add_subtract_wrap.1 (mk 10) (mk 5) rfl).2.1⟩

/-! ## Claims on the shape of `Split` and `Allocate` -/

/-- What `Split` returns at index `i` for a non-negative amount, read off
`Split_of_nonneg`. -/
theorem Split_getElem (c : Currency) (a n : Int) (ha : InRange a) (ha0 : 0 ≤ a)
    (hn0 : 0 < n) :
    ∃ ms, Money.Split ⟨⟨a⟩, c⟩ n = .ok (some ms, none) ∧ (ms.length : Int) = n ∧
      (amounts ms).sum = a ∧
      ∀ i : Nat, (amounts ms)[i]?
        = if (i : Int) < n then some (a.tdiv n + if (i : Int) < a.tmod n then 1 else 0)
          else none := by
  obtain ⟨ms, h1, h2, h3, h4⟩ := Split_of_nonneg c a n ha ha0 hn0
  have hm0 := Int.emod_nonneg a (by omega : n ≠ 0)
  refine ⟨ms, h1, by rw [h3]; exact Int.toNat_of_nonneg hn0.le, h4, ?_⟩
  intro i
  rw [h2, getElem?_addFirst, List.getElem?_replicate, Int.tdiv_eq_ediv ha0 hn0.le,
    Int.tmod_eq_emod ha0 hn0.le]
  by_cases hi : (i : Int) < n
  · have hi1 : i < n.toNat := by omega
    rw [if_pos hi, if_pos hi1]
    by_cases hk : (i : Int) < a % n
    · have hk1 : i < (a % n).toNat := by omega
      simp [hk, hk1]
    · have hk1 : ¬ i < (a % n).toNat := by omega
      simp [hk, hk1]
  · have hi1 : ¬ i < n.toNat := by omega
    rw [if_neg hi, if_neg hi1]
    rfl

/-- C14, shape of `Split` for non-negative amounts: for an `int64` amount `a ≥ 0` and
`n > 0`, `Split` returns `n` parts; part `i` is `a / n + 1` for `i < a mod n` and `a / n`
from there on (truncating division); so the parts do not increase with the index and
each differs from `a / n` by at most 1.  The test cases are instances. -/
theorem Split_shape :
    (∀ (c : Currency) (a n : Int), InRange a → 0 ≤ a → 0 < n →
      ∃ ms, Money.Split ⟨⟨a⟩, c⟩ n = .ok (some ms, none) ∧ (ms.length : Int) = n ∧
        (∀ i : Nat, (i : Int) < n →
          (amounts ms)[i]? = some (if (i : Int) < a.tmod n then a.tdiv n + 1 else a.tdiv n)) ∧
        (∀ (i j : Nat) (p q : Int), i ≤ j →
          (amounts ms)[i]? = some p → (amounts ms)[j]? = some q → q ≤ p) ∧
        (∀ p ∈ amounts ms, |p - a.tdiv n| ≤ 1)) ∧
    Money.Split (mk 100) 3 = .ok (some [mk 34, mk 33, mk 33], none) ∧
    Money.Split (mk 100) 4 = .ok (some [mk 25, mk 25, mk 25, mk 25], none) ∧
    Money.Split (mk 5) 3 = .ok (some [mk 2, mk 2, mk 1], none) := by
  refine ⟨?_, by decide, by decide, by decide⟩
  intro c a n ha ha0 hn0
  obtain ⟨ms, h1, h2, _, h4⟩ := Split_getElem c a n ha ha0 hn0
  refine ⟨ms, h1, h2, ?_, ?_, ?_⟩
  · intro i hi
    rw [h4 i, if_pos hi]
    by_cases hk : (i : Int) < a.tmod n <;> simp [hk]
  · intro i j p q hij hp hq
    rw [h4 i] at hp
    rw [h4 j] at hq
    have hij1 : (i : Int) ≤ j := by exact_mod_cast hij
    split at hp
    · split at hq
      · simp only [Option.some.injEq] at hp hq
        subst hp
        subst hq
        split <;> split <;> omega
      · cases hq
    · cases hp
  · intro p hp
    obtain ⟨i, hi⟩ := List.mem_iff_getElem?.mp hp
    rw [h4 i] at hi
    split at hi
    · simp only [Option.some.injEq] at hi
      subst hi
      rw [abs_le]
      split <;> constructor <;> omega
    · cases hi

/-- C14 at the amount 5 and the count 3 of the tests. -/
theorem Split_shape_witness :
    InRange 5 ∧ (0 : Int) ≤ 5 ∧ (0 : Int) < 3 ∧
    ∃ ms, Money.Split ⟨⟨5⟩, eur⟩ 3 = .ok (some ms, none) ∧ (ms.length : Int) = 3 ∧
      (∀ i : Nat, (i : Int) < 3 →
        (amounts ms)[i]?
          = some (if (i : Int) < (5 : Int).tmod 3 then (5 : Int).tdiv 3 + 1 else (5 : Int).tdiv 3)) ∧
      (∀ (i j : Nat) (p q : Int), i ≤ j →
        (amounts ms)[i]? = some p → (amounts ms)[j]? = some q → q ≤ p) ∧
      (∀ p ∈ amounts ms, |p - (5 : Int).tdiv 3| ≤ 1) :=
  ⟨by decide, by decide, by decide, Split_shape.1 eur 5 3 (by decide) (by decide) (by decide)⟩

/-- C15, shape of `Allocate`: on inputs without overflow, with the truncated quotients
`q i = trunc(a * r i / S)` and the leftover `L = a - sum of the q i`, part `i` is
`q i + sign(L)` for `i < |L|` and `q i` from there on, in the order of the ratios.  The
test cases are instances. -/
theorem Allocate_parts :
    (∀ (c : Currency) (a : Int) (rs : List Int), NoOverflow a rs →
      ∀ L : Int, L = a - (rs.map (fun r => (a * r).tdiv rs.sum)).sum →
      ∃ ms, Money.Allocate ⟨⟨a⟩, c⟩ rs = .ok (some ms, none) ∧ ms.length = rs.length ∧
        ∀ (i : Nat) (r : Int), rs[i]? = some r →
          (amounts ms)[i]?
            = some (if i < L.natAbs then (a * r).tdiv rs.sum + L.sign else (a * r).tdiv rs.sum)) ∧
    Money.Allocate (mk 100) [50, 50] = .ok (some [mk 50, mk 50], none) ∧
    Money.Allocate (mk 100) [30, 30, 30] = .ok (some [mk 34, mk 33, mk 33], none) ∧
    Money.Allocate (mk 200) [25, 25, 50] = .ok (some [mk 50, mk 50, mk 100], none) ∧
    Money.Allocate (mk 5) [50, 25, 25] = .ok (some [mk 3, mk 1, mk 1], none) := by
  refine ⟨?_, by decide, by decide, by decide, by decide⟩
  intro c a rs h L hL
  obtain ⟨ms, h1, h2, h3⟩ := Allocate_getElem c a rs h
  have hLe : L = leftover a rs := hL
  refine ⟨ms, h1, h2, ?_⟩
  intro i r hr
  rw [h3 i r hr, hLe]
  by_cases hi : i < (leftover a rs).natAbs <;> simp [hi]

/-- C15 at the amount 5 with the ratios 50, 25, 25 of the tests: the leftover is 1. -/
theorem Allocate_parts_witness :
    NoOverflow 5 [50, 25, 25] ∧
    (1 : Int) = 5 - (([50, 25, 25] : List Int).map
      (fun r => ((5 : Int) * r).tdiv ([50, 25, 25] : List Int).sum)).sum ∧
    ∃ ms, Money.Allocate ⟨⟨5⟩, eur⟩ [50, 25, 25] = .ok (some ms, none) ∧
      ms.length = ([50, 25, 25] : List Int).length ∧
      ∀ (i : Nat) (r : Int), ([50, 25, 25] : List Int)[i]? = some r →
        (amounts ms)[i]?
          = some (if i < (1 : Int).natAbs
              then ((5 : Int) * r).tdiv ([50, 25, 25] : List Int).sum + (1 : Int).sign
              else ((5 : Int) * r).tdiv ([50, 25, 25] : List Int).sum) :=
  ⟨by decide, by decide, Allocate_parts.1 eur 5 [50, 25, 25] (by decide) 1 (by decide)⟩

/-- C19, leftover bound and sign of `Allocate`: on inputs without overflow the sum `T`
of the truncated raw shares has the sign of the amount (or is zero) and is at most the
amount in magnitude; the leftover `L = a - T` lies in `[0, len)` for `a ≥ 0` and in
`(-len, 0]` for `a ≤ 0`; so the redistribution loop returns without indexing out of
range: it changes exactly the parts of index below `|L|`, which is below the number of
parts, and its counter `L - j * sign(L)` first reaches zero after `|L|` steps. -/
theorem Allocate_leftover_bound (c : Currency) (a : Int) (rs : List Int)
    (h : NoOverflow a rs) (T L : Int)
    (hT : T = (rs.map (fun r => (a * r).tdiv rs.sum)).sum) (hL : L = a - T) :
    |T| ≤ |a| ∧ (0 ≤ a → 0 ≤ T) ∧ (a ≤ 0 → T ≤ 0) ∧
    (0 ≤ a → 0 ≤ L ∧ L < rs.length) ∧ (a ≤ 0 → -(rs.length : Int) < L ∧ L ≤ 0) ∧
    (∃ ms, Money.Allocate ⟨⟨a⟩, c⟩ rs = .ok (some ms, none) ∧ ms.length = rs.length ∧
      L.natAbs < rs.length ∧
      (∀ (i : Nat) (r : Int), rs[i]? = some r → i < L.natAbs →
        (amounts ms)[i]? = some ((a * r).tdiv rs.sum + L.sign)) ∧
      (∀ (i : Nat) (r : Int), rs[i]? = some r → L.natAbs ≤ i →
        (amounts ms)[i]? = some ((a * r).tdiv rs.sum))) ∧
    (∀ j : Nat, j < L.natAbs → L - j * L.sign ≠ 0) ∧ L - L.natAbs * L.sign = 0 := by
  have hTe : T = (rawShares a rs.sum rs).sum := hT
  have hLe : L = leftover a rs := by rw [hL, hTe]; rfl
  obtain ⟨ms, h1, h2, h3⟩ := Allocate_getElem c a rs h
  obtain ⟨_, _, _, _, h4, _, _⟩ := Allocate_shape c a rs h
  obtain ⟨_, hrs, hs, _, _⟩ := h
  have hpos : 0 ≤ a → 0 ≤ T ∧ T ≤ a ∧ 0 ≤ L ∧ L < rs.length := by
    intro h0
    obtain ⟨l1, l2, l3, l4⟩ := leftover_of_nonneg h0 rs hrs hs
    rw [← hTe] at l1 l2 l3 l4
    rw [hL]
    exact ⟨l4, l3, l1, l2⟩
  have hneg : a ≤ 0 → T ≤ 0 ∧ a ≤ T ∧ L ≤ 0 ∧ -(rs.length : Int) < L := by
    intro h0
    obtain ⟨l1, l2, l3, l4⟩ := leftover_of_nonpos h0 rs hrs hs
    rw [← hTe] at l1 l2 l3 l4
    rw [hL]
    exact ⟨l4, l3, l1, l2⟩
  have hsign : (0 < L → L.sign = 1) ∧ (L < 0 → L.sign = -1) ∧ (L = 0 → L.sign = 0) :=
    ⟨Int.sign_eq_one_of_pos, Int.sign_eq_neg_one_of_neg, fun h0 => by rw [h0]; rfl⟩
  refine ⟨?_, fun h0 => (hpos h0).1, fun h0 => (hneg h0).1,
    fun h0 => ⟨(hpos h0).2.2.1, (hpos h0).2.2.2⟩,
    fun h0 => ⟨(hneg h0).2.2.2, (hneg h0).2.2.1⟩, ⟨ms, h1, h2, by rw [hLe]; exact h4, ?_, ?_⟩,
    ?_, ?_⟩
  · rcases le_total 0 a with h0 | h0
    · obtain ⟨t1, t2, _, _⟩ := hpos h0
      rw [abs_of_nonneg t1, abs_of_nonneg h0]
      exact t2
    · obtain ⟨t1, t2, _, _⟩ := hneg h0
      rw [abs_of_nonpos t1, abs_of_nonpos h0]
      omega
  · intro i r hr hi
    rw [h3 i r hr, ← hLe, if_pos hi]
  · intro i r hr hi
    rw [h3 i r hr, ← hLe, if_neg (by omega), add_zero]
  · intro j hj
    rcases lt_trichotomy L 0 with h0 | h0 | h0
    · rw [hsign.2.1 h0]; omega
    · rw [h0] at hj; simp at hj
    · rw [hsign.1 h0]; omega
  · rcases lt_trichotomy L 0 with h0 | h0 | h0
    · rw [hsign.2.1 h0]; omega
    · rw [h0]; simp
    · rw [hsign.1 h0]; omega

/-- C19 at the amount -5 with the ratios 50, 25, 25: the raw shares sum to -4 and the
leftover is -1. -/
theorem Allocate_leftover_bound_witness :
    NoOverflow (-5) [50, 25, 25] ∧
    (-4 : Int) = (([50, 25, 25] : List Int).map
      (fun r => ((-5 : Int) * r).tdiv ([50, 25, 25] : List Int).sum)).sum ∧
    (-1 : Int) = -5 - -4 ∧
    (|(-4 : Int)| ≤ |(-5 : Int)| ∧ ((0 : Int) ≤ -5 → (0 : Int) ≤ -4) ∧
    ((-5 : Int) ≤ 0 → (-4 : Int) ≤ 0) ∧
    ((0 : Int) ≤ -5 → (0 : Int) ≤ -1 ∧ (-1 : Int) < ([50, 25, 25] : List Int).length) ∧
    ((-5 : Int) ≤ 0 → -((([50, 25, 25] : List Int).length : Nat) : Int) < -1 ∧ (-1 : Int) ≤ 0) ∧
    (∃ ms, Money.Allocate ⟨⟨-5⟩, eur⟩ [50, 25, 25] = .ok (some ms, none) ∧
      ms.length = ([50, 25, 25] : List Int).length ∧
      (-1 : Int).natAbs < ([50, 25, 25] : List Int).length ∧
      (∀ (i : Nat) (r : Int), ([50, 25, 25] : List Int)[i]? = some r → i < (-1 : Int).natAbs →
        (amounts ms)[i]?
          = some (((-5 : Int) * r).tdiv ([50, 25, 25] : List Int).sum + (-1 : Int).sign)) ∧
      (∀ (i : Nat) (r : Int), ([50, 25, 25] : List Int)[i]? = some r → (-1 : Int).natAbs ≤ i →
        (amounts ms)[i]? = some (((-5 : Int) * r).tdiv ([50, 25, 25] : List Int).sum))) ∧
    (∀ j : Nat, j < (-1 : Int).natAbs → (-1 : Int) - j * (-1 : Int).sign ≠ 0) ∧
    (-1 : Int) - (-1 : Int).natAbs * (-1 : Int).sign = 0) :=
  ⟨by decide, by decide, by decide,
    Allocate_leftover_bound eur (-5) [50, 25, 25] (by decide) (-4) (-1) (by decide) (by decide)⟩

/-! ## Claims on the comparison against half and on the sign of `round` -/

theorem tdiv_mul_cancel_left (k x s : Int) (hk : 0 < k) (hs : 0 < s) :
    (k * x).tdiv (k * s) = x.tdiv s := by
  have hks : 0 ≤ k * s := Int.mul_nonneg hk.le hs.le
  rcases le_total 0 x with hx | hx
  · rw [Int.tdiv_eq_ediv (Int.mul_nonneg hk.le hx) hks, Int.tdiv_eq_ediv hx hs.le,
      Int.mul_ediv_mul_of_pos _ _ hk]
  · have hy : 0 ≤ -x := by omega
    have e1 : k * x = -(k * -x) := by ring
    have e2 : x = -(-x) := by ring
    rw [e1, Int.neg_tdiv, Int.tdiv_eq_ediv (Int.mul_nonneg hk.le hy) hks,
      Int.mul_ediv_mul_of_pos _ _ hk]
    conv_rhs => rw [e2, Int.neg_tdiv, Int.tdiv_eq_ediv hy hs.le]

theorem sum_map_scale (k : Int) (rs : List Int) :
    (rs.map (fun r => k * r)).sum = k * rs.sum := by
  induction rs with
  | nil => simp
  | cons r rs ih => simp only [List.map_cons, List.sum_cons, ih]; ring

theorem rawShares_scale (a k : Int) (hk : 0 < k) (rs : List Int) (hs : 0 < rs.sum) :
    rawShares a (rs.map (fun r => k * r)).sum (rs.map (fun r => k * r))
      = rawShares a rs.sum rs := by
  rw [sum_map_scale]
  simp only [rawShares, List.map_map]
  apply List.map_congr_left
  intro r _
  simp only [Function.comp]
  have e : a * (k * r) = k * (a * r) := by ring
  rw [e, tdiv_mul_cancel_left _ _ _ hk hs]

theorem addFirst_neg (sub : Int) : ∀ (k : Nat) (xs : List Int),
    addFirst (-sub) k (xs.map (fun q => -q)) = (addFirst sub k xs).map (fun q => -q)
  | 0, _ => rfl
  | _ + 1, [] => rfl
  | k + 1, x :: xs => by
    simp only [List.map_cons, addFirst, addFirst_neg sub k xs]
    congr 1
    ring

/-- Two lists of money values with the same amounts and the same currencies are the
same list. -/
theorem money_list_ext : ∀ (ms1 ms2 : List Money), amounts ms1 = amounts ms2 →
    ms1.map Money.CurrencyData = ms2.map Money.CurrencyData → ms1 = ms2
  | [], [], _, _ => rfl
  | [], _ :: _, h, _ => by simp [amounts] at h
  | _ :: _, [], h, _ => by simp [amounts] at h
  | m1 :: r1, m2 :: r2, h, hc => by
    simp only [amounts, List.map_cons, List.cons.injEq] at h hc
    have ih := money_list_ext r1 r2 h.2 hc.2
    have hm : m1 = m2 := by
      cases m1 with
      | mk a1 c1 =>
        cases m2 with
        | mk a2 c2 =>
          cases a1
          cases a2
          simp only [Money.Amount] at h
          simp only at hc
          rw [h.1, hc.1]
    rw [hm, ih]

/-- C21, `Allocate` with equal weights coincides with `Split`: for every `int64`
amount `a ≥ 0`, every `n ≥ 1` and every positive constant `k` (in particular 1), no
operation overflowing, `Allocate` on `n` copies of `k` returns the same list of amounts
as `Split(n)`. -/
theorem Allocate_equal_weights :
    (∀ (c : Currency) (a : Int) (n : Nat) (k : Int), 0 ≤ a → 1 ≤ n → 0 < k →
      NoOverflow a (List.replicate n k) →
      ∃ ms ms1, Money.Allocate ⟨⟨a⟩, c⟩ (List.replicate n k) = .ok (some ms, none) ∧
        Money.Split ⟨⟨a⟩, c⟩ n = .ok (some ms1, none) ∧ amounts ms = amounts ms1) ∧
    Money.Allocate (mk 100) [1, 1, 1] = Money.Split (mk 100) 3 ∧
    Money.Allocate (mk 5) [7, 7, 7] = Money.Split (mk 5) 3 := by
  refine ⟨?_, by decide, by decide⟩
  intro c a n k ha0 hn hk h
  have hn0 : (0 : Int) < n := by exact_mod_cast hn
  obtain ⟨ms, h1, h2, _⟩ := Allocate_shape c a (List.replicate n k) h
  obtain ⟨ms1, g1, g2, _⟩ := Split_of_nonneg c a n h.1 ha0 hn0
  refine ⟨ms, ms1, h1, g1, ?_⟩
  have hsum : (List.replicate n k).sum = (n : Int) * k := by
    rw [List.sum_replicate, nsmul_eq_mul]
  have hq : (a * k).tdiv ((n : Int) * k) = a / n := by
    have e1 : a * k = k * a := by ring
    have e2 : (n : Int) * k = k * n := by ring
    rw [e1, e2, tdiv_mul_cancel_left _ _ _ hk hn0, Int.tdiv_eq_ediv ha0 hn0.le]
  have hraw : rawShares a (List.replicate n k).sum (List.replicate n k)
      = List.replicate n (a / n) := by
    rw [hsum]
    simp only [rawShares, List.map_replicate, hq]
  have hlo : leftover a (List.replicate n k) = a % n := by
    unfold leftover
    rw [hraw, List.sum_replicate, nsmul_eq_mul, Int.emod_def]
  have hm0 := Int.emod_nonneg a (by omega : (n : Int) ≠ 0)
  rw [h2, g2, hraw, hlo, Int.toNat_natCast]
  have hk1 : (a % (n : Int)).natAbs = (a % (n : Int)).toNat := by omega
  rw [hk1]
  rcases eq_or_lt_of_le hm0 with hz | hp
  · rw [← hz]
    rfl
  · rw [Int.sign_eq_one_of_pos hp]

/-- C21 at the amount 100, three parts, the constant weight 30. -/
theorem Allocate_equal_weights_witness :
    (0 : Int) ≤ 100 ∧ 1 ≤ 3 ∧ (0 : Int) < 30 ∧ NoOverflow 100 (List.replicate 3 30) ∧
    ∃ ms ms1, Money.Allocate ⟨⟨100⟩, eur⟩ (List.replicate 3 30) = .ok (some ms, none) ∧
      Money.Split ⟨⟨100⟩, eur⟩ ((3 : Nat) : Int) = .ok (some ms1, none) ∧
      amounts ms = amounts ms1 :=
  ⟨by decide, by decide, by decide, by decide,
    Allocate_equal_weights.1 eur 100 3 30 (by decide) (by decide) (by decide) (by decide)⟩

/-- C22, `Allocate` depends only on the proportions of the ratios: for every amount,
every sequence of non-negative ratios of positive sum and every `k > 0`, no operation
overflowing on either sequence, `Allocate` on the ratios multiplied by `k` returns the
same parts as on the ratios themselves.  The tests allocate 100 by 30, 30, 30 and by
33, 33, 33, with the same result. -/
theorem Allocate_scale :
    (∀ (c : Currency) (a k : Int) (rs : List Int), 0 < k → NoOverflow a rs →
      NoOverflow a (rs.map (fun r => k * r)) →
      ∃ ms, Money.Allocate ⟨⟨a⟩, c⟩ (rs.map (fun r => k * r)) = .ok (some ms, none) ∧
        Money.Allocate ⟨⟨a⟩, c⟩ rs = .ok (some ms, none)) ∧
    Money.Allocate ⟨⟨100⟩, gbp⟩ [30, 30, 30]
      = .ok (some [⟨⟨34⟩, gbp⟩, ⟨⟨33⟩, gbp⟩, ⟨⟨33⟩, gbp⟩], none) ∧
    Money.Allocate ⟨⟨100⟩, gbp⟩ [33, 33, 33]
      = .ok (some [⟨⟨34⟩, gbp⟩, ⟨⟨33⟩, gbp⟩, ⟨⟨33⟩, gbp⟩], none) := by
  refine ⟨?_, by decide, by decide⟩
  intro c a k rs hk h1 h2
  obtain ⟨ms, e1, e2, e3, _⟩ := Allocate_shape c a rs h1
  obtain ⟨ms1, g1, g2, g3, _⟩ := Allocate_shape c a (rs.map (fun r => k * r)) h2
  have hraw := rawShares_scale a k hk rs h1.2.2.1
  have hlo : leftover a (rs.map (fun r => k * r)) = leftover a rs := by
    unfold leftover
    rw [hraw]
  have hms : ms1 = ms := by
    apply money_list_ext
    · rw [g2, e2, hraw, hlo]
    · rw [g3, e3, List.map_map]
      rfl
  rw [hms] at g1
  exact ⟨ms, g1, e1⟩

/-- C22 at the amount 100 with the ratios 30, 30, 30 and the factor 3. -/
theorem Allocate_scale_witness :
    (0 : Int) < 3 ∧ NoOverflow 100 [30, 30, 30] ∧
    NoOverflow 100 (([30, 30, 30] : List Int).map (fun r => 3 * r)) ∧
    ∃ ms, Money.Allocate ⟨⟨100⟩, eur⟩ (([30, 30, 30] : List Int).map (fun r => 3 * r))
        = .ok (some ms, none) ∧
      Money.Allocate ⟨⟨100⟩, eur⟩ [30, 30, 30] = .ok (some ms, none) :=
  ⟨by decide, by decide, by decide,
    Allocate_scale.1 eur 100 3 [30, 30, 30] (by decide) (by decide) (by decide)⟩

/-- C23, `Allocate` is odd in the amount: for every amount `a` and every sequence of
non-negative ratios of positive sum, no operation overflowing for `a` or for `-a`,
`Allocate` of `-a` returns the element-wise negation of `Allocate` of `a`; a negative
amount is allocated without failure, and its negative leftover units go to the parties
of lowest index: part `i` is `q i - 1` for `i < |L|` and `q i` from there on. -/
theorem Allocate_odd :
    (∀ (c : Currency) (a : Int) (rs : List Int), NoOverflow a rs → NoOverflow (-a) rs →
      ∃ ms ms1, Money.Allocate ⟨⟨a⟩, c⟩ rs = .ok (some ms, none) ∧
        Money.Allocate ⟨⟨-a⟩, c⟩ rs = .ok (some ms1, none) ∧
        amounts ms1 = (amounts ms).map (fun x => -x) ∧
        (a < 0 → ∀ L : Int, L = a - (rs.map (fun r => (a * r).tdiv rs.sum)).sum →
          ∀ (i : Nat) (r : Int), rs[i]? = some r →
            (amounts ms)[i]?
              = some (if i < L.natAbs then (a * r).tdiv rs.sum - 1 else (a * r).tdiv rs.sum))) ∧
    Money.Allocate (mk 5) [50, 25, 25] = .ok (some [mk 3, mk 1, mk 1], none) ∧
    Money.Allocate (mk (-5)) [50, 25, 25] = .ok (some [mk (-3), mk (-1), mk (-1)], none) := by
  refine ⟨?_, by decide, by decide⟩
  intro c a rs h1 h2
  obtain ⟨ms, e1, e2, _, _, _, e6⟩ := Allocate_shape c a rs h1
  obtain ⟨ms1, g1, g2, _⟩ := Allocate_shape c (-a) rs h2
  obtain ⟨ms2, f1, _, f3⟩ := Allocate_getElem c a rs h1
  have hms : ms2 = ms := by
    rw [e1] at f1
    simpa using f1.symm
  subst hms
  have hraw := rawShares_neg a rs.sum rs
  have hlo : leftover (-a) rs = -leftover a rs := by
    unfold leftover
    rw [hraw, sum_map_neg]
    ring
  refine ⟨ms2, ms1, e1, g1, ?_, ?_⟩
  · rw [g2, e2, hraw, hlo, Int.natAbs_neg, Int.sign_neg, addFirst_neg]
  · intro hneg L hL i r hr
    have hLe : L = leftover a rs := hL
    have hL0 := e6 hneg.le
    rw [f3 i r hr, hLe]
    by_cases hi : i < (leftover a rs).natAbs
    · have hs : (leftover a rs).sign = -1 := Int.sign_eq_neg_one_of_neg (by omega)
      rw [if_pos hi, if_pos hi, hs]
      rfl
    · rw [if_neg hi, if_neg hi, add_zero]

/-- C23 at the negative amount -5 with the ratios 50, 25, 25. -/
theorem Allocate_odd_witness :
    NoOverflow (-5) [50, 25, 25] ∧ NoOverflow (-(-5)) [50, 25, 25] ∧
    ∃ ms ms1, Money.Allocate ⟨⟨-5⟩, eur⟩ [50, 25, 25] = .ok (some ms, none) ∧
      Money.Allocate ⟨⟨-(-5)⟩, eur⟩ [50, 25, 25] = .ok (some ms1, none) ∧
      amounts ms1 = (amounts ms).map (fun x => -x) ∧
      ((-5 : Int) < 0 → ∀ L : Int,
        L = -5 - (([50, 25, 25] : List Int).map
          (fun r => ((-5 : Int) * r).tdiv ([50, 25, 25] : List Int).sum)).sum →
        ∀ (i : Nat) (r : Int), ([50, 25, 25] : List Int)[i]? = some r →
          (amounts ms)[i]?
            = some (if i < L.natAbs then ((-5 : Int) * r).tdiv ([50, 25, 25] : List Int).sum - 1
                else ((-5 : Int) * r).tdiv ([50, 25, 25] : List Int).sum)) :=
  ⟨by decide, by decide, Allocate_odd.1 eur (-5) [50, 25, 25] (by decide) (by decide)⟩

end GoMoney
